import Mathlib

/-!
Verification of the roster state machine of the badminton sign-up chat bot
(`src/index.js`).

All text is modelled as `List Char`.  The source file contains two
concatenated revisions of the program; JavaScript hoists function
declarations, so for every function declared twice the later declaration is
the live one.  The definitions below embed the later (live) declarations,
which are also the ones the specification cites.
-/

namespace Roster

/-- Text is modelled as a list of characters. -/
abbrev Str := List Char

/-- The anonymous placeholder sentinel string `__ANON__` used in section lists. -/
def ANON : Str := "__ANON__".toList

/-- Code points treated as whitespace by JavaScript's `trim` and by the
regexp class `\s` (ECMAScript WhiteSpace plus LineTerminator). -/
def wsCodes : List Nat :=
  [9, 10, 11, 12, 13, 32, 160, 0x1680, 0x2000, 0x2001, 0x2002, 0x2003, 0x2004,
   0x2005, 0x2006, 0x2007, 0x2008, 0x2009, 0x200A, 0x2028, 0x2029, 0x202F,
   0x205F, 0x3000, 0xFEFF]

/-- Whether a character is JavaScript whitespace. -/
def isJsWs (c : Char) : Bool := decide (c.toNat ∈ wsCodes)

/-- Model of JavaScript `String.prototype.trim` (strip leading and trailing
whitespace). -/
def jsTrim (s : Str) : Str :=
  ((s.dropWhile isJsWs).reverse.dropWhile isJsWs).reverse

/-- The decimal digit character for `n < 10`. -/
def digitChar (n : Nat) : Char := Char.ofNat (48 + n)

/-- Whether a character is an ASCII decimal digit. -/
def isDigitCh (c : Char) : Bool := decide (48 ≤ c.toNat) && decide (c.toNat ≤ 57)

/-- Numeric value of a digit character. -/
def digitVal (c : Char) : Nat := c.toNat - 48

/-- Value of a digit string read left to right. -/
def digitsVal (s : Str) : Nat := s.foldl (fun a c => 10 * a + digitVal c) 0

/-- Decimal rendering of a natural number, fuel-driven so that it is
structurally recursive (fuel `n + 1` always suffices).  Models JavaScript
`String(n)` for a non-negative integer. -/
def natToStrAux : Nat → Nat → Str
  | 0, _ => []
  | fuel + 1, n =>
    if n < 10 then [digitChar n]
    else natToStrAux fuel (n / 10) ++ [digitChar (n % 10)]

/-- Decimal rendering of a natural number. -/
def natToStr (n : Nat) : Str := natToStrAux (n + 1) n

/-- Digit-prefix parse: JavaScript `parseInt(s, 10)` on a sign-free string
returns the value of the maximal digit prefix, or NaN (here `none`) when the
first character is not a digit. -/
def parseDigits (s : Str) : Option Nat :=
  match s with
  | [] => none
  | c :: _ => if isDigitCh c then some (digitsVal (s.takeWhile isDigitCh)) else none

/-- Model of JavaScript `parseInt(s, 10)` (decimal, optional sign; the hex
form is unreachable for the inputs this program feeds it). -/
def parseJsInt (s : Str) : Option Int :=
  match s with
  | [] => none
  | c :: rest =>
    if c = '-' then (parseDigits rest).map (fun n => -(n : Int))
    else if c = '+' then (parseDigits rest).map (fun n => (n : Int))
    else (parseDigits (c :: rest)).map (fun n => (n : Int))

/-- Model of JavaScript `Array.prototype.join(sep)`. -/
def joinSep (sep : Str) : List Str → Str
  | [] => []
  | [x] => x
  | x :: xs => x ++ sep ++ joinSep sep (xs)

/-- Helper for `splitNl`: prepend a character to the first chunk. -/
def consHead (c : Char) : List Str → List Str
  | [] => [[c]]
  | l :: ls => (c :: l) :: ls

/-- Model of JavaScript `s.split(/\r?\n/)`: break at each `\n`, consuming an
immediately preceding `\r`; a lone `\r` is ordinary text. -/
def splitNl : Str → List Str
  | [] => [[]]
  | '\n' :: rest => [] :: splitNl rest
  | '\r' :: '\n' :: rest => [] :: splitNl rest
  | c :: rest => consHead c (splitNl rest)

/-- Whether `csvEscape` must quote the field: the source tests
`/[",\r\n]/`. -/
def needsQuote (s : Str) : Bool :=
  s.any (fun c => c = '"' || c = ',' || c = '\r' || c = '\n')

/-- Double every double quote (JavaScript `s.replace(/"/g, '""')`). -/
def dupQuotes : Str → Str
  | [] => []
  | c :: t => if c = '"' then '"' :: '"' :: dupQuotes t else c :: dupQuotes t

/-- The function `csvEscape` from `src/index.js`: wrap the field in double quotes, doubling
interior quotes, whenever it contains a comma, quote, or line break. -/
def csvEscape (s : Str) : Str :=
  if needsQuote s then '"' :: (dupQuotes s ++ ['"']) else s

/-- The character loop of `parseCsvLine` from `src/index.js`: `cur` is the
field being accumulated and the boolean is the `inQuotes` state. -/
def parseCsvAux : Str → Str → Bool → List Str
  | [], cur, _ => [cur]
  | '"' :: '"' :: rest, cur, true => parseCsvAux rest (cur ++ ['"']) true
  | '"' :: rest, cur, true => parseCsvAux rest cur false
  | c :: rest, cur, true => parseCsvAux rest (cur ++ [c]) true
  | ',' :: rest, cur, false => cur :: parseCsvAux rest [] false
  | '"' :: rest, cur, false => parseCsvAux rest cur true
  | c :: rest, cur, false => parseCsvAux rest (cur ++ [c]) false

/-- The function `parseCsvLine` from `src/index.js`. -/
def parseCsvLine (l : Str) : List Str := parseCsvAux l [] false

/-! ### Basic lemmas about the text primitives -/

theorem digitChar_toNat (d : Nat) (h : d < 10) : (digitChar d).toNat = 48 + d := by
  interval_cases d <;> decide

theorem isDigitCh_digitChar (d : Nat) (h : d < 10) : isDigitCh (digitChar d) = true := by
  interval_cases d <;> decide

theorem digitVal_digitChar (d : Nat) (h : d < 10) : digitVal (digitChar d) = d := by
  interval_cases d <;> decide

/-- A digit character is none of the characters special to the CSV and line
machinery. -/
theorem digitCh_not_special (c : Char) (h : isDigitCh c = true) :
    isJsWs c = false ∧ c ≠ '\n' ∧ c ≠ '\r' ∧ c ≠ ',' ∧ c ≠ '"' ∧ c ≠ '-' ∧ c ≠ '+' := by
  simp only [isDigitCh, Bool.and_eq_true, decide_eq_true_eq] at h
  refine ⟨?_, ?_, ?_, ?_, ?_, ?_, ?_⟩
  · simp only [isJsWs, wsCodes, decide_eq_false_iff_not, List.mem_cons, List.not_mem_nil,
      or_false]
    omega
  all_goals
    intro hc
    subst hc
    exact absurd h (by decide)

theorem natToStrAux_fuel (f1 f2 n : Nat) (h1 : n < f1) (h2 : n < f2) :
    natToStrAux f1 n = natToStrAux f2 n := by
  induction f1 using Nat.strong_induction_on generalizing f2 n with
  | _ f1 ih =>
    match f1, f2 with
    | f1 + 1, f2 + 1 =>
      simp only [natToStrAux]
      by_cases hn : n < 10
      · simp [hn]
      · simp only [hn, if_false]
        have hd : n / 10 < n := Nat.div_lt_self (by omega) (by omega)
        rw [ih f1 (by omega) f2 (n / 10) (by omega) (by omega)]

theorem natToStr_eq (n : Nat) :
    natToStr n = if n < 10 then [digitChar n]
      else natToStr (n / 10) ++ [digitChar (n % 10)] := by
  show natToStrAux (n + 1) n = _
  by_cases hn : n < 10
  · simp [natToStrAux, hn]
  · simp only [natToStrAux, hn, if_false]
    have hd : n / 10 < n := Nat.div_lt_self (by omega) (by omega)
    rw [natToStrAux_fuel n (n / 10 + 1) (n / 10) (by omega) (by omega)]
    rfl

theorem natToStr_ne_nil (n : Nat) : natToStr n ≠ [] := by
  rw [natToStr_eq]
  by_cases hn : n < 10 <;> simp [hn]

theorem natToStr_digits (n : Nat) : ∀ c ∈ natToStr n, isDigitCh c = true := by
  induction n using Nat.strong_induction_on with
  | _ n ih =>
    rw [natToStr_eq]
    by_cases hn : n < 10
    · simp only [hn, if_true, List.mem_singleton]
      rintro c rfl
      exact isDigitCh_digitChar n hn
    · simp only [hn, if_false, List.mem_append, List.mem_singleton]
      rintro c (hc | rfl)
      · exact ih (n / 10) (Nat.div_lt_self (by omega) (by omega)) c hc
      · exact isDigitCh_digitChar (n % 10) (Nat.mod_lt _ (by omega))

theorem digitsVal_concat (x : Str) (c : Char) :
    digitsVal (x ++ [c]) = 10 * digitsVal x + digitVal c := by
  simp [digitsVal, List.foldl_append]

theorem digitsVal_natToStr (n : Nat) : digitsVal (natToStr n) = n := by
  induction n using Nat.strong_induction_on with
  | _ n ih =>
    rw [natToStr_eq]
    by_cases hn : n < 10
    · simp [digitsVal, hn, digitVal_digitChar n hn]
    · simp only [hn, if_false]
      rw [digitsVal_concat, ih (n / 10) (Nat.div_lt_self (by omega) (by omega)),
        digitVal_digitChar (n % 10) (Nat.mod_lt _ (by omega))]
      omega

theorem parseDigits_natToStr (n : Nat) : parseDigits (natToStr n) = some n := by
  have hne := natToStr_ne_nil n
  have hdig := natToStr_digits n
  match hs : natToStr n with
  | [] => exact absurd hs hne
  | c :: rest =>
    have hc : isDigitCh c = true := hdig c (by rw [hs]; exact List.mem_cons_self _ _)
    simp only [parseDigits, hc, if_true]
    have htake : (c :: rest).takeWhile isDigitCh = c :: rest := by
      apply List.takeWhile_eq_self_iff.mpr
      intro x hx
      exact hdig x (by rw [hs]; exact hx)
    rw [htake, ← hs, digitsVal_natToStr]

theorem parseCsvAux_comma (rest : Str) (cur : Str) :
    parseCsvAux (',' :: rest) cur false = cur :: parseCsvAux rest [] false := rfl

theorem parseCsvAux_quote_open (rest : Str) (cur : Str) :
    parseCsvAux ('"' :: rest) cur false = parseCsvAux rest cur true := by
  match rest with
  | [] => rfl
  | c2 :: rest2 => simp [parseCsvAux]

theorem parseCsvAux_other (c : Char) (rest cur : Str) (h1 : c ≠ ',') (h2 : c ≠ '"') :
    parseCsvAux (c :: rest) cur false = parseCsvAux rest (cur ++ [c]) false := by
  match rest with
  | [] => simp [parseCsvAux, h1, h2]
  | c2 :: rest2 => simp [parseCsvAux, h1, h2]

theorem parseCsvAux_qq (rest cur : Str) :
    parseCsvAux ('"' :: '"' :: rest) cur true = parseCsvAux rest (cur ++ ['"']) true := rfl

theorem parseCsvAux_quote_close (rest cur : Str) (h : rest.head? ≠ some '"') :
    parseCsvAux ('"' :: rest) cur true = parseCsvAux rest cur false := by
  match rest with
  | [] => rfl
  | c2 :: rest2 =>
    have h2 : c2 ≠ '"' := by simpa using h
    simp [parseCsvAux, h2]

theorem parseCsvAux_char_true (c : Char) (rest cur : Str) (h : c ≠ '"') :
    parseCsvAux (c :: rest) cur true = parseCsvAux rest (cur ++ [c]) true := by
  match rest with
  | [] => simp [parseCsvAux, h]
  | c2 :: rest2 => simp [parseCsvAux, h]

/-- Running the CSV state machine over an unquoted clean field just shifts the
field into the accumulator. -/
theorem parseCsvAux_unquoted (f : Str) (hf : ∀ c ∈ f, c ≠ ',' ∧ c ≠ '"') :
    ∀ r cur, parseCsvAux (f ++ r) cur false = parseCsvAux r (cur ++ f) false := by
  induction f with
  | nil => intro r cur; simp
  | cons c f ih =>
    intro r cur
    obtain ⟨h1, h2⟩ := hf c (List.mem_cons_self _ _)
    rw [List.cons_append, parseCsvAux_other c _ _ h1 h2,
      ih (fun x hx => hf x (List.mem_cons_of_mem _ hx)) r (cur ++ [c])]
    simp

/-- Running the CSV state machine in quoted mode over the quote-doubled body
followed by the closing quote recovers the raw field. -/
theorem parseCsvAux_quoted (f : Str) :
    ∀ r cur, r.head? ≠ some '"' →
      parseCsvAux (dupQuotes f ++ '"' :: r) cur true = parseCsvAux r (cur ++ f) false := by
  induction f with
  | nil =>
    intro r cur h
    simpa using parseCsvAux_quote_close r cur h
  | cons c f ih =>
    intro r cur h
    by_cases hc : c = '"'
    · subst hc
      show parseCsvAux (('"' :: '"' :: dupQuotes f) ++ '"' :: r) cur true = _
      rw [List.cons_append, List.cons_append, parseCsvAux_qq, ih r (cur ++ ['"']) h]
      simp
    · have hd : dupQuotes (c :: f) = c :: dupQuotes f := by simp [dupQuotes, hc]
      rw [hd, List.cons_append, parseCsvAux_char_true c _ _ hc, ih r (cur ++ [c]) h]
      simp

/-- Running the CSV state machine over an escaped field recovers the raw
field, provided the remainder does not open with a stray quote (in well-formed
rows the remainder is empty or starts with a comma). -/
theorem parseCsvAux_escaped (f : Str) (r cur : Str) (h : r.head? ≠ some '"') :
    parseCsvAux (csvEscape f ++ r) cur false = parseCsvAux r (cur ++ f) false := by
  by_cases hq : needsQuote f
  · show parseCsvAux ((if needsQuote f then '"' :: (dupQuotes f ++ ['"']) else f) ++ r)
      cur false = _
    rw [if_pos hq, List.cons_append, parseCsvAux_quote_open]
    have : (dupQuotes f ++ ['"']) ++ r = dupQuotes f ++ '"' :: r := by simp
    rw [this, parseCsvAux_quoted f r cur h]
  · show parseCsvAux ((if needsQuote f then '"' :: (dupQuotes f ++ ['"']) else f) ++ r)
      cur false = _
    rw [if_neg hq]
    apply parseCsvAux_unquoted
    intro c hc
    simp only [needsQuote, List.any_eq_true, Bool.or_eq_true, decide_eq_true_eq,
      not_exists, not_or] at hq
    have h3 := hq c
    tauto

/-- Parsing the comma-join of escaped fields recovers the fields. -/
theorem parseCsvLine_joinSep (fields : List Str) (h : fields ≠ []) :
    parseCsvLine (joinSep [','] (fields.map csvEscape)) = fields := by
  induction fields with
  | nil => exact absurd rfl h
  | cons f rest ih =>
    match rest with
    | [] =>
      have hj : joinSep [','] ([f].map csvEscape) = csvEscape f ++ [] := by
        simp [joinSep]
      rw [parseCsvLine, hj, parseCsvAux_escaped f [] [] (by simp)]
      simp [parseCsvAux]
    | g :: t =>
      have hj : joinSep [','] ((f :: g :: t).map csvEscape)
          = csvEscape f ++ (',' :: joinSep [','] ((g :: t).map csvEscape)) := by
        simp [joinSep]
      rw [parseCsvLine, hj, parseCsvAux_escaped f _ [] (by simp), List.nil_append,
        parseCsvAux_comma, ← parseCsvLine, ih (by simp)]

theorem parseJsInt_natToStr (n : Nat) : parseJsInt (natToStr n) = some (n : Int) := by
  have hne := natToStr_ne_nil n
  have hdig := natToStr_digits n
  match hs : natToStr n with
  | [] => exact absurd hs hne
  | c :: rest =>
    have hc : isDigitCh c = true := hdig c (by rw [hs]; exact List.mem_cons_self _ _)
    obtain ⟨-, -, -, -, -, hm, hp⟩ := digitCh_not_special c hc
    simp only [parseJsInt, hm, hp, if_false]
    rw [← hs, parseDigits_natToStr]
    rfl

end Roster

namespace Roster

/-! ### Data model (section 3 of the spec, `games[gid]` objects in the code) -/

/-- A roster section: `{ title, limit, backupLimit, label, list }`.
`backupLimit` is optional because legacy records may lack it (the snapshot
writer uses `section.backupLimit ?? ''`). -/
structure GameSection where
  title : Str
  limit : Nat
  backupLimit : Option Nat
  label : Str
  list : List Str
deriving Repr, DecidableEq

/-- A game object, one per conversation id. -/
structure Game where
  title : Str
  note : Str
  active : Bool
  startTime : Int
  lastActiveTime : Int
  scheduleTime : Option Int
  scheduleInput : Option Str
  anonymous : List Str
  anonymousCount : Nat
  sections : List GameSection
deriving Repr, DecidableEq

/-- The in-memory registry `games`, an insertion-ordered map from
conversation id to game. -/
abbrev Registry := List (Str × Game)

/-- Whether an entry is a real name (not the anonymous placeholder). -/
def isReal (n : Str) : Bool := decide (n ≠ ANON)

/-- The real (non-placeholder) entries of a list. -/
def realNames (l : List Str) : List Str := l.filter isReal

/-! ### Flattened CSV snapshot (`saveCurrentListSnapshot`) -/

/-- The limit column: `String(section.limit || '')`. -/
def limitField (n : Nat) : Str := if n = 0 then [] else natToStr n

/-- The backup column: `String(section.backupLimit ?? '')`. -/
def backupField : Option Nat → Str
  | none => []
  | some n => natToStr n

/-- One data row of the snapshot:
`[gid, sectionIdx, name, limit, backupLimit].map(csvEscape).join(',')`. -/
def snapshotRow (gid : Str) (idx : Nat) (sec : GameSection) (name : Str) : Str :=
  joinSep [','] ([gid, natToStr idx, name, limitField sec.limit,
    backupField sec.backupLimit].map csvEscape)

/-- The rows contributed by one section: one row per non-anonymous entry. -/
def sectionRows (gid : Str) (idx : Nat) (sec : GameSection) : List Str :=
  (realNames sec.list).map (snapshotRow gid idx sec)

/-- The rows of all sections of a game (`g.sections.forEach((section, i))`). -/
def sectionsRowsAux (gid : Str) : Nat → List GameSection → List Str
  | _, [] => []
  | idx, sec :: rest => sectionRows gid idx sec ++ sectionsRowsAux gid (idx + 1) rest

/-- All data rows across the whole registry. -/
def snapshotRows (reg : Registry) : List Str :=
  (reg.map (fun e => sectionsRowsAux e.1 0 e.2.sections)).flatten

/-- The snapshot header row. -/
def csvHeader : Str := "gid,sectionIdx,name,limit,backupLimit".toList

/-- The full snapshot text:
`header + '\n' + (rows.length > 0 ? rows.join('\n') + '\n' : '')`. -/
def snapshotContent (reg : Registry) : Str :=
  csvHeader ++ '\n' :: (if snapshotRows reg = [] then []
    else joinSep ['\n'] (snapshotRows reg) ++ ['\n'])

/-! ### Recovery from the snapshot (`restoreGamesFromCsv`) -/

/-- Per-section capacity metadata accumulated during recovery. -/
structure SectionMeta where
  limit : Option Nat
  backupLimit : Option Nat
deriving Repr, DecidableEq

/-- Column positions found in the header (`indexOf`; `none` models `-1`). -/
structure HeaderIdx where
  gid : Nat
  sectionIdx : Nat
  name : Nat
  limit : Option Nat
  backupLimit : Option Nat
deriving Repr, DecidableEq

/-- Insertion-ordered map update, modelling `Map.set` after a
`Map.has`-guarded initialisation: update the entry in place when the key is
present, append it otherwise. -/
def alUpd {α β : Type} [DecidableEq α] (m : List (α × β)) (k : α) (d : β) (f : β → β) :
    List (α × β) :=
  match m with
  | [] => [(k, f d)]
  | (a, b) :: t => if a = k then (a, f b) :: t else (a, b) :: alUpd t k d f

/-- Insertion-ordered map lookup (`Map.get`). -/
def alGet {α β : Type} [DecidableEq α] (m : List (α × β)) (k : α) : Option β :=
  match m with
  | [] => none
  | (a, b) :: t => if a = k then some b else alGet t k

/-- The fallback `cols[i] || dflt`: an absent or empty column falls back to the default. -/
def colOr (cols : List Str) (i : Nat) (dflt : Str) : Str :=
  match cols.get? i with
  | some s => if s = [] then dflt else s
  | none => dflt

/-- The recovery loop state: `byGid` and `metaByGid` from the source. -/
structure RestoreAcc where
  byGid : List (Str × List (Nat × List Str))
  meta : List (Str × List (Nat × SectionMeta))
deriving Repr, DecidableEq

/-- The guard `if (Number.isFinite(rawLimit) && rawLimit > 0)
sectionMeta.limit = Math.max(sectionMeta.limit || 0, rawLimit)`. -/
def updMetaLimit (cols : List Str) (idxLimit : Option Nat) (m : SectionMeta) : SectionMeta :=
  match idxLimit with
  | none => m
  | some i =>
    match parseJsInt (jsTrim (colOr cols i [])) with
    | some v => if 0 < v then { m with limit := some (max (m.limit.getD 0) v.toNat) } else m
    | none => m

/-- The guard `if (Number.isFinite(rawBackup) && rawBackup >= 0)
sectionMeta.backupLimit = Math.max(sectionMeta.backupLimit || 0, rawBackup)`. -/
def updMetaBackup (cols : List Str) (idxBackup : Option Nat) (m : SectionMeta) : SectionMeta :=
  match idxBackup with
  | none => m
  | some i =>
    match parseJsInt (jsTrim (colOr cols i [])) with
    | some v =>
      if 0 ≤ v then { m with backupLimit := some (max (m.backupLimit.getD 0) v.toNat) } else m
    | none => m

/-- The push `if (!list.includes(name)) list.push(name)`. -/
def pushName (name : Str) (l : List Str) : List Str :=
  if name ∈ l then l else l ++ [name]

/-- One iteration of the recovery loop over data lines. -/
def processLine (hIdx : HeaderIdx) (acc : RestoreAcc) (rawLine : Str) : RestoreAcc :=
  let line := jsTrim rawLine
  if line = [] then acc
  else
    let cols := parseCsvLine line
    let gid := jsTrim (colOr cols hIdx.gid [])
    let name := jsTrim (colOr cols hIdx.name [])
    let sidx := parseJsInt (jsTrim (colOr cols hIdx.sectionIdx ['0']))
    if gid = [] ∨ name = [] then acc
    else
      let safeIdx : Nat := match sidx with
        | some i => if 0 ≤ i then i.toNat else 0
        | none => 0
      { byGid := alUpd acc.byGid gid [] (fun secMap => alUpd secMap safeIdx [] (pushName name))
        meta := alUpd acc.meta gid [] (fun mm => alUpd mm safeIdx ⟨none, none⟩
          (fun m => updMetaBackup cols hIdx.backupLimit (updMetaLimit cols hIdx.limit m))) }

/-- The maximum `Math.max(...sectionIndices, 0)`. -/
def maxKey {α : Type} (l : List (Nat × α)) : Nat := (l.map Prod.fst).foldl max 0

/-- Default titles given to rebuilt sections. -/
def sectionTitleFor (idx : Nat) : Str :=
  if idx = 0 then "報名名單".toList else "區段".toList ++ natToStr (idx + 1)

/-- One rebuilt section: list from `byGid`, capacities from the metadata with
the documented defaults (`meta.limit || Math.max(20, list.length)`,
`meta.backupLimit ?? 5`). -/
def buildSection (secMap : List (Nat × List Str)) (metaMap : List (Nat × SectionMeta))
    (idx : Nat) : GameSection :=
  let list := (alGet secMap idx).getD []
  let meta := (alGet metaMap idx).getD ⟨none, none⟩
  let l0 := meta.limit.getD 0
  { title := sectionTitleFor idx
    limit := if l0 = 0 then max 20 list.length else l0
    backupLimit := some (meta.backupLimit.getD 5)
    label := []
    list := list }

/-- Rebuild the section array for indices `0 .. maxIdx`. -/
def buildSections (secMap : List (Nat × List Str)) (metaMap : List (Nat × SectionMeta)) :
    List GameSection :=
  (List.range (maxKey secMap + 1)).map (buildSection secMap metaMap)

/-- The fresh game object recovery writes into the registry. -/
def restoredGame (now : Int) (sections : List GameSection) : Game :=
  { title := "羽球接龍".toList, note := [], active := true, startTime := now,
    lastActiveTime := now, scheduleTime := none, scheduleInput := none,
    anonymous := [], anonymousCount := 0, sections := sections }

/-- The search `Array.prototype.indexOf` over the header columns (`none` models `-1`). -/
def indexOfStr (l : List Str) (s : Str) : Option Nat :=
  match l with
  | [] => none
  | x :: t => if x = s then some 0 else (indexOfStr t s).map (· + 1)

/-- The lowercased, trimmed header columns of the snapshot text (the
`headerCols` local of `restoreGamesFromCsv`). -/
def headerColsOf (content : Str) : List Str :=
  (parseCsvLine ((splitNl (jsTrim content)).headD [])).map
    (fun h => (jsTrim h).map Char.toLower)

/-- The recovery accumulator after the loop over the data lines (the
`byGid` and `metaByGid` locals of `restoreGamesFromCsv`). -/
def restoreAccOf (hIdx : HeaderIdx) (content : Str) : RestoreAcc :=
  ((splitNl (jsTrim content)).drop 1).foldl (processLine hIdx) ⟨[], []⟩

/-- The final rebuild step of `restoreGamesFromCsv`: one fresh game per
recovered gid, in insertion order. -/
def restoreBuild (now : Int) (games0 : Registry) (hIdx : HeaderIdx) (content : Str) :
    Registry :=
  if (restoreAccOf hIdx content).byGid = [] then games0
  else games0 ++ (restoreAccOf hIdx content).byGid.map (fun e =>
    (e.1, restoredGame now (buildSections e.2
      ((alGet (restoreAccOf hIdx content).meta e.1).getD []))))

/-- The function `restoreGamesFromCsv` from `src/index.js`: rebuild the registry from the
flattened snapshot when the registry is empty.  All the early-`return false`
paths leave the registry unchanged. -/
def restoreGamesFromCsv (now : Int) (games0 : Registry) (content : Str) : Registry :=
  if games0 ≠ [] then games0
  else if content = [] then games0
  else if (splitNl (jsTrim content)).length ≤ 1 then games0
  else
    match indexOfStr (headerColsOf content) "gid".toList,
      indexOfStr (headerColsOf content) "sectionidx".toList,
      indexOfStr (headerColsOf content) "name".toList with
    | some ig, some isec, some iname =>
      restoreBuild now games0
        ⟨ig, isec, iname, indexOfStr (headerColsOf content) "limit".toList,
          indexOfStr (headerColsOf content) "backuplimit".toList⟩ content
    | _, _, _ => games0

end Roster

namespace Roster

/-! ### Lemmas about trimming and line splitting -/

/-- A string with no whitespace character at the front is untouched by
`dropWhile isJsWs`. -/
theorem dropWhile_ws_eq_self (s : Str) (h : ∀ c, s.head? = some c → isJsWs c = false) :
    s.dropWhile isJsWs = s := by
  match s with
  | [] => rfl
  | c :: t =>
    have hc : isJsWs c = false := h c rfl
    simp [List.dropWhile, hc]

/-- A string whose first and last characters are not whitespace is its own
trim. -/
theorem jsTrim_eq_self (s : Str) (h1 : ∀ c, s.head? = some c → isJsWs c = false)
    (h2 : ∀ c, s.getLast? = some c → isJsWs c = false) : jsTrim s = s := by
  unfold jsTrim
  rw [dropWhile_ws_eq_self s h1, dropWhile_ws_eq_self _ (fun c hc => h2 c (by
    rwa [List.head?_reverse] at hc)), List.reverse_reverse]

/-- A whitespace-free string is its own trim. -/
theorem jsTrim_of_no_ws (s : Str) (h : ∀ c ∈ s, isJsWs c = false) : jsTrim s = s := by
  apply jsTrim_eq_self
  · intro c hc
    exact h c (List.mem_of_mem_head? hc)
  · intro c hc
    exact h c (List.mem_of_mem_getLast? hc)

/-- Trimming a string that ends in a single newline but otherwise has a
non-whitespace head and tail strips exactly that newline. -/
theorem jsTrim_concat_nl (s : Str) (h1 : ∀ c, s.head? = some c → isJsWs c = false)
    (h2 : ∀ c, s.getLast? = some c → isJsWs c = false) :
    jsTrim (s ++ ['\n']) = s := by
  match s with
  | [] => rfl
  | a :: t =>
    have ha : isJsWs a = false := h1 a rfl
    unfold jsTrim
    rw [show (a :: t) ++ ['\n'] = a :: (t ++ ['\n']) from rfl, List.dropWhile_cons,
      if_neg (by simp [ha]), show a :: (t ++ ['\n']) = (a :: t) ++ ['\n'] from rfl,
      List.reverse_append, show (['\n'] : Str).reverse = ['\n'] from rfl,
      List.singleton_append, List.dropWhile_cons, if_pos (by decide),
      dropWhile_ws_eq_self _ (fun c hc => h2 c (by rwa [List.head?_reverse] at hc)),
      List.reverse_reverse]

/-- If a nonempty string equals its own trim, its head is not whitespace. -/
theorem head_not_ws_of_jsTrim_eq (s : Str) (h : jsTrim s = s) (c : Char)
    (hc : s.head? = some c) : isJsWs c = false := by
  by_contra hws
  have hws' : isJsWs c = true := by
    cases hb : isJsWs c with
    | false => exact absurd hb hws
    | true => rfl
  match s, hc with
  | a :: t, hc =>
    have hac : a = c := by simpa using hc
    have hlen : (jsTrim (a :: t)).length < (a :: t).length := by
      unfold jsTrim
      rw [List.dropWhile_cons, if_pos (by rw [hac]; simp [hws'])]
      have hle1 : (t.dropWhile isJsWs).length ≤ t.length :=
        (List.dropWhile_sublist (p := isJsWs) (l := t)).length_le
      have hle2 : ((t.dropWhile isJsWs).reverse.dropWhile isJsWs).length
          ≤ (t.dropWhile isJsWs).reverse.length :=
        (List.dropWhile_sublist (p := isJsWs)).length_le
      simp only [List.length_reverse] at *
      simp only [List.length_cons]
      omega
    rw [h] at hlen
    omega

/-- Step equation of `splitNl` for an ordinary character. -/
theorem splitNl_cons_other (c : Char) (rest : Str) (h1 : c ≠ '\n') (h2 : c ≠ '\r') :
    splitNl (c :: rest) = consHead c (splitNl rest) := by
  simp [splitNl, h1, h2]

/-- The splitter `splitNl` on a chunk free of `\n` and `\r` yields that single chunk. -/
theorem splitNl_of_clean (a : Str) (h : ∀ c ∈ a, c ≠ '\n' ∧ c ≠ '\r') :
    splitNl a = [a] := by
  induction a with
  | nil => rfl
  | cons c t ih =>
    obtain ⟨h1, h2⟩ := h c (List.mem_cons_self _ _)
    rw [splitNl_cons_other c t h1 h2, ih (fun x hx => h x (List.mem_cons_of_mem _ hx))]
    rfl

/-- The splitter `splitNl` peels a clean chunk followed by a newline. -/
theorem splitNl_cons_chunk (a r : Str) (h : ∀ c ∈ a, c ≠ '\n' ∧ c ≠ '\r') :
    splitNl (a ++ '\n' :: r) = a :: splitNl r := by
  induction a with
  | nil =>
    show splitNl ('\n' :: r) = [] :: splitNl r
    simp [splitNl]
  | cons c t ih =>
    obtain ⟨h1, h2⟩ := h c (List.mem_cons_self _ _)
    rw [List.cons_append, splitNl_cons_other c _ h1 h2,
      ih (fun x hx => h x (List.mem_cons_of_mem _ hx))]
    rfl

/-- The splitter `splitNl` undoes a newline-join of clean chunks. -/
theorem splitNl_joinSep (ls : List Str) (hne : ls ≠ [])
    (h : ∀ l ∈ ls, ∀ c ∈ l, c ≠ '\n' ∧ c ≠ '\r') :
    splitNl (joinSep ['\n'] ls) = ls := by
  induction ls with
  | nil => exact absurd rfl hne
  | cons x rest ih =>
    match rest with
    | [] =>
      show splitNl x = [x]
      exact splitNl_of_clean x (h x (List.mem_cons_self _ _))
    | y :: t =>
      have hx := h x (List.mem_cons_self _ _)
      have hj : joinSep ['\n'] (x :: y :: t) = x ++ '\n' :: joinSep ['\n'] (y :: t) := by
        simp [joinSep]
      rw [hj, splitNl_cons_chunk x _ hx,
        ih (by simp) (fun l hl => h l (List.mem_cons_of_mem _ hl))]

end Roster

namespace Roster

/-! ### Character analysis of snapshot rows -/

/-- Well-formedness of a text fragment that must survive the snapshot round
trip: nonempty, unchanged by trimming, and free of line breaks. -/
def GoodField (s : Str) : Prop :=
  s ≠ [] ∧ jsTrim s = s ∧ ∀ c ∈ s, c ≠ '\n' ∧ c ≠ '\r'

instance (s : Str) : Decidable (GoodField s) := by
  unfold GoodField
  infer_instance

theorem mem_dupQuotes (c : Char) (f : Str) (h : c ∈ dupQuotes f) : c = '"' ∨ c ∈ f := by
  induction f with
  | nil => simp [dupQuotes] at h
  | cons a t ih =>
    rw [show dupQuotes (a :: t)
      = if a = '"' then '"' :: '"' :: dupQuotes t else a :: dupQuotes t from rfl] at h
    by_cases ha : a = '"'
    · rw [if_pos ha] at h
      rcases List.mem_cons.mp h with rfl | h2
      · exact Or.inl rfl
      rcases List.mem_cons.mp h2 with rfl | h3
      · exact Or.inl rfl
      rcases ih h3 with h4 | h4
      · exact Or.inl h4
      · exact Or.inr (List.mem_cons_of_mem _ h4)
    · rw [if_neg ha] at h
      rcases List.mem_cons.mp h with rfl | h2
      · exact Or.inr (List.mem_cons_self _ _)
      rcases ih h2 with h4 | h4
      · exact Or.inl h4
      · exact Or.inr (List.mem_cons_of_mem _ h4)

theorem mem_csvEscape (c : Char) (f : Str) (h : c ∈ csvEscape f) : c = '"' ∨ c ∈ f := by
  unfold csvEscape at h
  by_cases hq : needsQuote f
  · rw [if_pos hq] at h
    rcases List.mem_cons.mp h with rfl | h2
    · exact Or.inl rfl
    rcases List.mem_append.mp h2 with h3 | h3
    · exact mem_dupQuotes c f h3
    · exact Or.inl (List.mem_singleton.mp h3)
  · rw [if_neg hq] at h
    exact Or.inr h

theorem mem_joinSep (c : Char) (sep : Str) (ls : List Str) (h : c ∈ joinSep sep ls) :
    c ∈ sep ∨ ∃ l ∈ ls, c ∈ l := by
  induction ls with
  | nil => simp [joinSep] at h
  | cons x rest ih =>
    match rest with
    | [] =>
      exact Or.inr ⟨x, List.mem_cons_self _ _, h⟩
    | y :: t =>
      have hj : joinSep sep (x :: y :: t) = x ++ sep ++ joinSep sep (y :: t) := by
        simp [joinSep]
      rw [hj] at h
      simp only [List.mem_append] at h
      rcases h with (h | h) | h
      · exact Or.inr ⟨x, List.mem_cons_self _ _, h⟩
      · exact Or.inl h
      · rcases ih h with h' | ⟨l, hl, hc⟩
        · exact Or.inl h'
        · exact Or.inr ⟨l, List.mem_cons_of_mem _ hl, hc⟩

theorem natToStr_clean (n : Nat) :
    ∀ c ∈ natToStr n, c ≠ '\n' ∧ c ≠ '\r' ∧ c ≠ ',' ∧ c ≠ '"' ∧ isJsWs c = false := by
  intro c hc
  obtain ⟨hws, h1, h2, h3, h4, -, -⟩ := digitCh_not_special c (natToStr_digits n c hc)
  exact ⟨h1, h2, h3, h4, hws⟩

theorem needsQuote_eq_false (f : Str)
    (h : ∀ c ∈ f, c ≠ '"' ∧ c ≠ ',' ∧ c ≠ '\r' ∧ c ≠ '\n') : needsQuote f = false := by
  rw [needsQuote, List.any_eq_false]
  intro c hc
  obtain ⟨h1, h2, h3, h4⟩ := h c hc
  simp [h1, h2, h3, h4]

theorem csvEscape_natToStr (n : Nat) : csvEscape (natToStr n) = natToStr n := by
  unfold csvEscape
  rw [if_neg (by
    rw [needsQuote_eq_false]
    · simp
    · intro c hc
      obtain ⟨h1, h2, h3, h4, -⟩ := natToStr_clean n c hc
      exact ⟨h4, h3, h2, h1⟩)]

theorem csvEscape_nil : csvEscape [] = [] := rfl

/-- The limit and backup columns are digit strings or empty. -/
theorem limitField_clean (n : Nat) :
    ∀ c ∈ limitField n, c ≠ '\n' ∧ c ≠ '\r' ∧ c ≠ ',' ∧ c ≠ '"' ∧ isJsWs c = false := by
  unfold limitField
  by_cases h : n = 0
  · simp [h]
  · rw [if_neg h]
    exact natToStr_clean n

theorem backupField_clean (b : Option Nat) :
    ∀ c ∈ backupField b, c ≠ '\n' ∧ c ≠ '\r' ∧ c ≠ ',' ∧ c ≠ '"' ∧ isJsWs c = false := by
  match b with
  | none => simp [backupField]
  | some n => exact natToStr_clean n

/-- Every character of a snapshot row built from line-break-free fields is
itself line-break free. -/
theorem snapshotRow_clean (gid : Str) (idx : Nat) (sec : GameSection) (name : Str)
    (hgid : ∀ c ∈ gid, c ≠ '\n' ∧ c ≠ '\r') (hname : ∀ c ∈ name, c ≠ '\n' ∧ c ≠ '\r') :
    ∀ c ∈ snapshotRow gid idx sec name, c ≠ '\n' ∧ c ≠ '\r' := by
  intro c hc
  unfold snapshotRow at hc
  rcases mem_joinSep c [','] _ hc with h | ⟨l, hl, hcl⟩
  · simp only [List.mem_singleton] at h
    subst h
    exact ⟨by decide, by decide⟩
  · simp only [List.mem_map, List.mem_cons, List.not_mem_nil, or_false] at hl
    obtain ⟨f, hf, rfl⟩ := hl
    rcases mem_csvEscape c f hcl with rfl | hcf
    · exact ⟨by decide, by decide⟩
    · rcases hf with rfl | rfl | rfl | rfl | rfl
      · exact hgid c hcf
      · obtain ⟨h1, h2, -⟩ := natToStr_clean idx c hcf
        exact ⟨h1, h2⟩
      · exact hname c hcf
      · obtain ⟨h1, h2, -⟩ := limitField_clean sec.limit c hcf
        exact ⟨h1, h2⟩
      · obtain ⟨h1, h2, -⟩ := backupField_clean sec.backupLimit c hcf
        exact ⟨h1, h2⟩

theorem head?_append_left {α : Type} (x y : List α) (h : x ≠ []) :
    (x ++ y).head? = x.head? := by
  match x with
  | [] => exact absurd rfl h
  | a :: t => rfl

theorem getLast?_cons_of_ne_nil {α : Type} (a : α) (l : List α) (h : l ≠ []) :
    (a :: l).getLast? = l.getLast? := by
  match l with
  | b :: t =>
    show (a :: b :: t).getLast? = (b :: t).getLast?
    simp [List.getLast?_cons_cons]

/-- The first character of a snapshot row is the first character of the
escaped gid. -/
theorem snapshotRow_head (gid : Str) (idx : Nat) (sec : GameSection) (name : Str)
    (hgid : gid ≠ []) :
    (snapshotRow gid idx sec name).head? = (csvEscape gid).head? := by
  unfold snapshotRow
  have hne : csvEscape gid ≠ [] := by
    unfold csvEscape
    by_cases hq : needsQuote gid
    · simp [hq]
    · simpa [hq] using hgid
  have hj : joinSep [','] ([gid, natToStr idx, name, limitField sec.limit,
      backupField sec.backupLimit].map csvEscape)
      = csvEscape gid ++ ([','] ++ joinSep [','] ([natToStr idx, name,
        limitField sec.limit, backupField sec.backupLimit].map csvEscape)) := by
    simp [joinSep]
  rw [hj, head?_append_left _ _ hne]

/-- The head of an escaped well-formed field is not whitespace. -/
theorem csvEscape_head_not_ws (f : Str) (hf : GoodField f) (c : Char)
    (hc : (csvEscape f).head? = some c) : isJsWs c = false := by
  obtain ⟨hne, htrim, -⟩ := hf
  unfold csvEscape at hc
  by_cases hq : needsQuote f
  · rw [if_pos hq] at hc
    simp only [List.head?_cons, Option.some.injEq] at hc
    subst hc
    decide
  · rw [if_neg hq] at hc
    exact head_not_ws_of_jsTrim_eq f htrim c hc

/-- The last character of a snapshot row is a digit or a comma, hence not
whitespace. -/
theorem snapshotRow_last_not_ws (gid : Str) (idx : Nat) (sec : GameSection) (name : Str)
    (c : Char) (hc : (snapshotRow gid idx sec name).getLast? = some c) :
    isJsWs c = false := by
  unfold snapshotRow at hc
  have hj : joinSep [','] ([gid, natToStr idx, name, limitField sec.limit,
      backupField sec.backupLimit].map csvEscape)
      = csvEscape gid ++ (',' :: (csvEscape (natToStr idx) ++ (',' :: (csvEscape name
        ++ (',' :: (csvEscape (limitField sec.limit)
          ++ (',' :: csvEscape (backupField sec.backupLimit)))))))) := by
    simp [joinSep]
  rw [hj, List.getLast?_append_of_ne_nil _ (by simp),
    getLast?_cons_of_ne_nil _ _ (by simp), List.getLast?_append_of_ne_nil _ (by simp),
    getLast?_cons_of_ne_nil _ _ (by simp), List.getLast?_append_of_ne_nil _ (by simp),
    getLast?_cons_of_ne_nil _ _ (by simp), List.getLast?_append_of_ne_nil _ (by simp)]
    at hc
  match hb : sec.backupLimit with
  | none =>
    rw [hb] at hc
    simp only [backupField, csvEscape_nil] at hc
    have : c = ',' := by simpa using hc.symm
    subst this
    decide
  | some n =>
    rw [hb] at hc
    simp only [backupField] at hc
    rw [csvEscape_natToStr, getLast?_cons_of_ne_nil _ _ (natToStr_ne_nil n)] at hc
    obtain ⟨-, -, -, -, hws⟩ := natToStr_clean n c (List.mem_of_mem_getLast? hc)
    exact hws

end Roster

namespace Roster

/-! ### Behaviour of the recovery loop on a snapshot row -/

/-- The header indices of the snapshot's own header row. -/
def hIdx0 : HeaderIdx := ⟨0, 1, 2, some 3, some 4⟩

/-- Combined effect of one row of section `sec` on that section's metadata. -/
def stepMeta (sec : GameSection) (m : SectionMeta) : SectionMeta :=
  let m1 : SectionMeta :=
    if sec.limit = 0 then m else { m with limit := some (max (m.limit.getD 0) sec.limit) }
  match sec.backupLimit with
  | none => m1
  | some b => { m1 with backupLimit := some (max (m1.backupLimit.getD 0) b) }

/-- The metadata recovered for a section all of whose rows carry that
section's own limit and backup values. -/
def metaOfSec (sec : GameSection) : SectionMeta :=
  ⟨if sec.limit = 0 then none else some sec.limit, sec.backupLimit⟩

theorem stepMeta_default (sec : GameSection) : stepMeta sec ⟨none, none⟩ = metaOfSec sec := by
  unfold stepMeta metaOfSec
  by_cases hl : sec.limit = 0 <;>
    match hb : sec.backupLimit with
    | none => simp [hl]
    | some b => simp [hl]

theorem stepMeta_fix (sec : GameSection) : stepMeta sec (metaOfSec sec) = metaOfSec sec := by
  unfold stepMeta metaOfSec
  by_cases hl : sec.limit = 0 <;>
    match hb : sec.backupLimit with
    | none => simp [hl]
    | some b => simp [hl]

theorem csvEscape_ne_nil (f : Str) (h : f ≠ []) : csvEscape f ≠ [] := by
  unfold csvEscape
  by_cases hq : needsQuote f
  · simp [hq]
  · simpa [hq] using h

theorem colOr_cons_zero (a : Str) (t : List Str) (dflt : Str) :
    colOr (a :: t) 0 dflt = if a = [] then dflt else a := rfl

theorem colOr_cons_succ (a : Str) (t : List Str) (i : Nat) (dflt : Str) :
    colOr (a :: t) (i + 1) dflt = colOr t i dflt := rfl

/-- The five parsed columns of a snapshot row. -/
def rowCols (gid : Str) (idx : Nat) (sec : GameSection) (name : Str) : List Str :=
  [gid, natToStr idx, name, limitField sec.limit, backupField sec.backupLimit]

theorem parseCsvLine_snapshotRow (gid : Str) (idx : Nat) (sec : GameSection) (name : Str) :
    parseCsvLine (snapshotRow gid idx sec name) = rowCols gid idx sec name := by
  unfold snapshotRow rowCols
  exact parseCsvLine_joinSep _ (by simp)

theorem jsTrim_natToStr (n : Nat) : jsTrim (natToStr n) = natToStr n := by
  apply jsTrim_of_no_ws
  intro c hc
  exact (natToStr_clean n c hc).2.2.2.2

theorem jsTrim_limitField (n : Nat) : jsTrim (limitField n) = limitField n := by
  apply jsTrim_of_no_ws
  intro c hc
  exact (limitField_clean n c hc).2.2.2.2

theorem jsTrim_backupField (b : Option Nat) : jsTrim (backupField b) = backupField b := by
  apply jsTrim_of_no_ws
  intro c hc
  exact (backupField_clean b c hc).2.2.2.2

theorem updMetaLimit_some (cols : List Str) (i : Nat) (m : SectionMeta) :
    updMetaLimit cols (some i) m
      = match parseJsInt (jsTrim (colOr cols i [])) with
        | some v => if 0 < v then { m with limit := some (max (m.limit.getD 0) v.toNat) }
          else m
        | none => m := rfl

theorem updMetaBackup_some (cols : List Str) (i : Nat) (m : SectionMeta) :
    updMetaBackup cols (some i) m
      = match parseJsInt (jsTrim (colOr cols i [])) with
        | some v => if 0 ≤ v then
            { m with backupLimit := some (max (m.backupLimit.getD 0) v.toNat) }
          else m
        | none => m := rfl

theorem ifEmpty_self (s : Str) : (if s = [] then ([] : Str) else s) = s := by
  by_cases h : s = [] <;> simp [h]

theorem colOr_rowCols_limit (gid : Str) (idx : Nat) (sec : GameSection) (name : Str) :
    colOr (rowCols gid idx sec name) 3 [] = limitField sec.limit := by
  show (if limitField sec.limit = [] then [] else limitField sec.limit) = limitField sec.limit
  exact ifEmpty_self _

theorem colOr_rowCols_backup (gid : Str) (idx : Nat) (sec : GameSection) (name : Str) :
    colOr (rowCols gid idx sec name) 4 []
      = backupField sec.backupLimit := by
  show (if backupField sec.backupLimit = [] then []
    else backupField sec.backupLimit) = backupField sec.backupLimit
  exact ifEmpty_self _

theorem updMetaLimit_row (gid : Str) (idx : Nat) (sec : GameSection) (name : Str)
    (m : SectionMeta) :
    updMetaLimit (rowCols gid idx sec name) (some 3) m
      = if sec.limit = 0 then m
        else { m with limit := some (max (m.limit.getD 0) sec.limit) } := by
  rw [updMetaLimit_some, colOr_rowCols_limit, jsTrim_limitField]
  by_cases hl : sec.limit = 0
  · simp [limitField, hl, parseJsInt]
  · rw [if_neg hl]
    have hlf : limitField sec.limit = natToStr sec.limit := by simp [limitField, hl]
    rw [hlf, parseJsInt_natToStr]
    have hpos : (0 : Int) < (sec.limit : Int) := by
      exact_mod_cast Nat.pos_of_ne_zero hl
    simp [hpos]

theorem updMetaBackup_row (gid : Str) (idx : Nat) (sec : GameSection) (name : Str)
    (m : SectionMeta) :
    updMetaBackup (rowCols gid idx sec name) (some 4) m
      = match sec.backupLimit with
        | none => m
        | some b => { m with backupLimit := some (max (m.backupLimit.getD 0) b) } := by
  rw [updMetaBackup_some, colOr_rowCols_backup]
  match hb : sec.backupLimit with
  | none => simp [backupField, jsTrim, parseJsInt]
  | some b =>
    rw [show backupField (some b) = natToStr b from rfl, jsTrim_natToStr,
      parseJsInt_natToStr]
    simp

theorem updMeta_row_eq_stepMeta (gid : Str) (idx : Nat) (sec : GameSection) (name : Str)
    (m : SectionMeta) :
    updMetaBackup (rowCols gid idx sec name) (some 4)
      (updMetaLimit (rowCols gid idx sec name) (some 3) m) = stepMeta sec m := by
  rw [updMetaLimit_row, updMetaBackup_row]
  unfold stepMeta
  rfl

/-- Effect of the recovery loop on one full snapshot row: the row is inserted
into the per-gid, per-section maps with the section metadata updated. -/
theorem processLine_snapshotRow (acc : RestoreAcc) (gid : Str) (idx : Nat)
    (sec : GameSection) (name : Str) (hgid : GoodField gid) (hname : GoodField name) :
    processLine hIdx0 acc (snapshotRow gid idx sec name)
      = { byGid := alUpd acc.byGid gid [] (fun m => alUpd m idx [] (pushName name))
          meta := alUpd acc.meta gid [] (fun mm => alUpd mm idx ⟨none, none⟩
            (stepMeta sec)) } := by
  have hrowhead : ∀ c, (snapshotRow gid idx sec name).head? = some c → isJsWs c = false := by
    intro c hc
    rw [snapshotRow_head _ _ _ _ hgid.1] at hc
    exact csvEscape_head_not_ws gid hgid c hc
  have htrim : jsTrim (snapshotRow gid idx sec name) = snapshotRow gid idx sec name :=
    jsTrim_eq_self _ hrowhead (snapshotRow_last_not_ws gid idx sec name)
  have hne : snapshotRow gid idx sec name ≠ [] := by
    intro hrow
    have h1 := snapshotRow_head gid idx sec name hgid.1
    rw [hrow] at h1
    have h2 : csvEscape gid ≠ [] := csvEscape_ne_nil gid hgid.1
    match he : csvEscape gid with
    | [] => exact h2 he
    | c :: t =>
      rw [he] at h1
      simp at h1
  unfold processLine
  simp only []
  rw [htrim, if_neg hne, parseCsvLine_snapshotRow]
  show (if jsTrim (colOr (rowCols gid idx sec name) hIdx0.gid []) = []
      ∨ jsTrim (colOr (rowCols gid idx sec name) hIdx0.name []) = [] then acc else _) = _
  have hc0 : colOr (rowCols gid idx sec name) hIdx0.gid [] = gid := by
    show colOr (gid :: _) 0 [] = gid
    rw [colOr_cons_zero, if_neg hgid.1]
  have hc2 : colOr (rowCols gid idx sec name) hIdx0.name [] = name := by
    show colOr (gid :: natToStr idx :: name :: _) 2 [] = name
    rw [colOr_cons_succ, colOr_cons_succ, colOr_cons_zero, if_neg hname.1]
  have hc1 : colOr (rowCols gid idx sec name) hIdx0.sectionIdx ['0'] = natToStr idx := by
    show colOr (gid :: natToStr idx :: _) 1 ['0'] = natToStr idx
    rw [colOr_cons_succ, colOr_cons_zero, if_neg (natToStr_ne_nil idx)]
  rw [hc0, hc2, hc1, hgid.2.1, hname.2.1, if_neg (by
    push_neg
    exact ⟨hgid.1, hname.1⟩), jsTrim_natToStr, parseJsInt_natToStr]
  have hsafe : (if (0 : Int) ≤ (idx : Int) then (idx : Int).toNat else 0) = idx := by
    simp
  show RestoreAcc.mk
      (alUpd acc.byGid gid []
        (fun secMap => alUpd secMap (if (0 : Int) ≤ (idx : Int)
          then (idx : Int).toNat else 0) [] (pushName name)))
      (alUpd acc.meta gid []
        (fun mm => alUpd mm (if (0 : Int) ≤ (idx : Int) then (idx : Int).toNat else 0)
          ⟨none, none⟩ (fun m => updMetaBackup (rowCols gid idx sec name) hIdx0.backupLimit
            (updMetaLimit (rowCols gid idx sec name) hIdx0.limit m)))) = _
  rw [hsafe]
  have hfun : (fun mm => alUpd mm idx (⟨none, none⟩ : SectionMeta)
      (fun m => updMetaBackup (rowCols gid idx sec name) hIdx0.backupLimit
        (updMetaLimit (rowCols gid idx sec name) hIdx0.limit m)))
      = fun mm => alUpd mm idx ⟨none, none⟩ (stepMeta sec) := by
    funext mm
    have hstep : (fun m => updMetaBackup (rowCols gid idx sec name) hIdx0.backupLimit
        (updMetaLimit (rowCols gid idx sec name) hIdx0.limit m)) = stepMeta sec := by
      funext m
      exact updMeta_row_eq_stepMeta gid idx sec name m
    rw [hstep]
  rw [hfun]

end Roster

namespace Roster

/-! ### Association-list lemmas -/

theorem alUpd_nil {α β : Type} [DecidableEq α] (k : α) (d : β) (f : β → β) :
    alUpd ([] : List (α × β)) k d f = [(k, f d)] := rfl

theorem alUpd_single_hit {α β : Type} [DecidableEq α] (k : α) (v : β) (d : β) (f : β → β) :
    alUpd [(k, v)] k d f = [(k, f v)] := by simp [alUpd]

theorem alUpd_append_last {α β : Type} [DecidableEq α] (E : List (α × β)) (k : α)
    (v d : β) (f : β → β) (h : ∀ p ∈ E, p.1 ≠ k) :
    alUpd (E ++ [(k, v)]) k d f = E ++ [(k, f v)] := by
  induction E with
  | nil => simp [alUpd]
  | cons p t ih =>
    obtain ⟨a, b⟩ := p
    have ha : a ≠ k := h (a, b) (List.mem_cons_self _ _)
    simp only [List.cons_append, alUpd, if_neg ha]
    exact congrArg (List.cons (a, b)) (ih (fun q hq => h q (List.mem_cons_of_mem _ hq)))

theorem alUpd_not_mem {α β : Type} [DecidableEq α] (E : List (α × β)) (k : α) (d : β)
    (f : β → β) (h : ∀ p ∈ E, p.1 ≠ k) :
    alUpd E k d f = E ++ [(k, f d)] := by
  induction E with
  | nil => rfl
  | cons p t ih =>
    obtain ⟨a, b⟩ := p
    have ha : a ≠ k := h (a, b) (List.mem_cons_self _ _)
    simp only [alUpd, if_neg ha, List.cons_append]
    exact congrArg (List.cons (a, b)) (ih (fun q hq => h q (List.mem_cons_of_mem _ hq)))

theorem alGet_cons {α β : Type} [DecidableEq α] (a : α) (b : β) (t : List (α × β)) (k : α) :
    alGet ((a, b) :: t) k = if a = k then some b else alGet t k := rfl

theorem alGet_not_mem {α β : Type} [DecidableEq α] (E : List (α × β)) (k : α)
    (h : ∀ p ∈ E, p.1 ≠ k) : alGet E k = none := by
  induction E with
  | nil => rfl
  | cons p t ih =>
    obtain ⟨a, b⟩ := p
    have ha : a ≠ k := h (a, b) (List.mem_cons_self _ _)
    rw [alGet_cons, if_neg ha, ih (fun q hq => h q (List.mem_cons_of_mem _ hq))]

theorem alGet_append {α β : Type} [DecidableEq α] (E1 E2 : List (α × β)) (k : α) :
    alGet (E1 ++ E2) k = match alGet E1 k with
      | some v => some v
      | none => alGet E2 k := by
  induction E1 with
  | nil => rfl
  | cons p t ih =>
    obtain ⟨a, b⟩ := p
    by_cases ha : a = k
    · simp [alGet_cons, ha]
    · simp only [List.cons_append, alGet_cons, if_neg ha]
      exact ih

/-! ### The recovery fold over one game's rows -/

/-- The per-gid section map the recovery loop builds from a game's rows:
one entry per section that contributed at least one row, holding its real
names in order. -/
def entriesAux : Nat → List GameSection → List (Nat × List Str)
  | _, [] => []
  | k, sec :: rest =>
    (if realNames sec.list = [] then [] else [(k, realNames sec.list)])
      ++ entriesAux (k + 1) rest

/-- The matching per-gid metadata map. -/
def metasAux : Nat → List GameSection → List (Nat × SectionMeta)
  | _, [] => []
  | k, sec :: rest =>
    (if realNames sec.list = [] then [] else [(k, metaOfSec sec)])
      ++ metasAux (k + 1) rest

theorem entriesAux_keys (secs : List GameSection) :
    ∀ k, ∀ p ∈ entriesAux k secs, k ≤ p.1 ∧ p.1 < k + secs.length := by
  induction secs with
  | nil => intro k p hp; simp [entriesAux] at hp
  | cons sec rest ih =>
    intro k p hp
    simp only [entriesAux, List.mem_append] at hp
    rcases hp with hp | hp
    · by_cases hr : realNames sec.list = []
      · simp [hr] at hp
      · rw [if_neg hr] at hp
        simp only [List.mem_singleton] at hp
        subst hp
        simp
    · obtain ⟨h1, h2⟩ := ih (k + 1) p hp
      simp only [List.length_cons]
      omega

theorem metasAux_keys (secs : List GameSection) :
    ∀ k, ∀ p ∈ metasAux k secs, k ≤ p.1 ∧ p.1 < k + secs.length := by
  induction secs with
  | nil => intro k p hp; simp [metasAux] at hp
  | cons sec rest ih =>
    intro k p hp
    simp only [metasAux, List.mem_append] at hp
    rcases hp with hp | hp
    · by_cases hr : realNames sec.list = []
      · simp [hr] at hp
      · rw [if_neg hr] at hp
        simp only [List.mem_singleton] at hp
        subst hp
        simp
    · obtain ⟨h1, h2⟩ := ih (k + 1) p hp
      simp only [List.length_cons]
      omega

/-- Folding the rows of one section after its first row has been processed:
each remaining name is appended to the section's entry. -/
theorem fold_names_push (gid : Str) (k : Nat) (sec : GameSection) (hgid : GoodField gid) :
    ∀ (names : List Str) (E : List (Nat × List Str)) (MM : List (Nat × SectionMeta))
      (p : List Str) (mcur : SectionMeta),
      (∀ n ∈ names, GoodField n) → (∀ n ∈ names, n ∉ p) → names.Nodup →
      (∀ q ∈ E, q.1 ≠ k) → (∀ q ∈ MM, q.1 ≠ k) → stepMeta sec mcur = mcur →
      List.foldl (processLine hIdx0)
        ⟨[(gid, E ++ [(k, p)])], [(gid, MM ++ [(k, mcur)])]⟩
        (names.map (snapshotRow gid k sec))
      = ⟨[(gid, E ++ [(k, p ++ names)])], [(gid, MM ++ [(k, mcur)])]⟩ := by
  intro names
  induction names with
  | nil =>
    intro E MM p mcur _ _ _ _ _ _
    simp
  | cons n rest ih =>
    intro E MM p mcur hgood hfresh hnodup hE hMM hfix
    rw [List.map_cons, List.foldl_cons,
      processLine_snapshotRow _ gid k sec n hgid (hgood n (List.mem_cons_self _ _))]
    have hby : alUpd [(gid, E ++ [(k, p)])] gid []
        (fun m => alUpd m k [] (pushName n)) = [(gid, E ++ [(k, p ++ [n])])] := by
      rw [alUpd_single_hit, alUpd_append_last _ _ _ _ _ hE]
      have hpush : pushName n p = p ++ [n] := by
        unfold pushName
        rw [if_neg (hfresh n (List.mem_cons_self _ _))]
      rw [hpush]
    have hmeta : alUpd [(gid, MM ++ [(k, mcur)])] gid []
        (fun mm => alUpd mm k ⟨none, none⟩ (stepMeta sec)) = [(gid, MM ++ [(k, mcur)])] := by
      rw [alUpd_single_hit, alUpd_append_last _ _ _ _ _ hMM, hfix]
    rw [hby, hmeta]
    rw [ih E MM (p ++ [n]) mcur (fun x hx => hgood x (List.mem_cons_of_mem _ hx))
      (by
        intro x hx
        simp only [List.mem_append, List.mem_singleton, not_or]
        constructor
        · exact hfresh x (List.mem_cons_of_mem _ hx)
        · intro hxn
          subst hxn
          exact (List.nodup_cons.mp hnodup).1 hx)
      (List.nodup_cons.mp hnodup).2 hE hMM hfix]
    simp

end Roster

namespace Roster

/-- Well-formedness of a section for the round trip: every real name is a
good field and the real names are pairwise distinct. -/
def GoodSection (sec : GameSection) : Prop :=
  (∀ n ∈ sec.list, isReal n = true → GoodField n) ∧ (realNames sec.list).Nodup

theorem mem_realNames {n : Str} {l : List Str} (h : n ∈ realNames l) :
    n ∈ l ∧ isReal n = true := List.mem_filter.mp h

/-- Folding the recovery loop over all rows of one section. -/
theorem fold_one_section (gid : Str) (hgid : GoodField gid) (k : Nat) (sec : GameSection)
    (hsec : GoodSection sec)
    (E : List (Nat × List Str)) (MM : List (Nat × SectionMeta))
    (hE : ∀ q ∈ E, q.1 < k) (hMM : ∀ q ∈ MM, q.1 < k)
    (acc : RestoreAcc)
    (hacc : acc = ⟨[(gid, E)], [(gid, MM)]⟩ ∨ (acc = ⟨[], []⟩ ∧ E = [] ∧ MM = [])) :
    List.foldl (processLine hIdx0) acc (sectionRows gid k sec)
      = if realNames sec.list = [] then acc
        else ⟨[(gid, E ++ [(k, realNames sec.list)])],
              [(gid, MM ++ [(k, metaOfSec sec)])]⟩ := by
  by_cases hr : realNames sec.list = []
  · rw [if_pos hr]
    unfold sectionRows
    rw [hr]
    simp
  · rw [if_neg hr]
    match hnr : realNames sec.list with
    | [] => exact absurd hnr hr
    | n :: rest =>
      have hnmem : n ∈ realNames sec.list := by rw [hnr]; exact List.mem_cons_self _ _
      have hngood : GoodField n := by
        obtain ⟨h1, h2⟩ := mem_realNames hnmem
        exact hsec.1 n h1 h2
      have hnodup : (n :: rest).Nodup := by rw [← hnr]; exact hsec.2
      unfold sectionRows
      rw [hnr, List.map_cons, List.foldl_cons]
      have hfirst : processLine hIdx0 acc (snapshotRow gid k sec n)
          = ⟨[(gid, E ++ [(k, [n])])], [(gid, MM ++ [(k, metaOfSec sec)])]⟩ := by
        have hpush : pushName n [] = [n] := by
          unfold pushName
          rw [if_neg (List.not_mem_nil n)]
          rfl
        rcases hacc with rfl | ⟨rfl, rfl, rfl⟩
        · rw [processLine_snapshotRow _ gid k sec n hgid hngood]
          have hby : alUpd [(gid, E)] gid [] (fun m => alUpd m k [] (pushName n))
              = [(gid, E ++ [(k, [n])])] := by
            rw [alUpd_single_hit,
              alUpd_not_mem E k [] _ (fun q hq hk => absurd (hk ▸ hE q hq) (by omega)),
              hpush]
          have hmeta : alUpd [(gid, MM)] gid []
              (fun mm => alUpd mm k ⟨none, none⟩ (stepMeta sec))
              = [(gid, MM ++ [(k, metaOfSec sec)])] := by
            rw [alUpd_single_hit,
              alUpd_not_mem MM k _ _ (fun q hq hk => absurd (hk ▸ hMM q hq) (by omega)),
              stepMeta_default]
          rw [hby, hmeta]
        · rw [processLine_snapshotRow _ gid k sec n hgid hngood]
          have hby : alUpd ([] : List (Str × List (Nat × List Str))) gid []
              (fun m => alUpd m k [] (pushName n)) = [(gid, [] ++ [(k, [n])])] := by
            rw [alUpd_nil, alUpd_nil, hpush]
            rfl
          have hmeta : alUpd ([] : List (Str × List (Nat × SectionMeta))) gid []
              (fun mm => alUpd mm k ⟨none, none⟩ (stepMeta sec))
              = [(gid, [] ++ [(k, metaOfSec sec)])] := by
            rw [alUpd_nil, alUpd_nil, stepMeta_default]
            rfl
          rw [hby, hmeta]
      rw [hfirst]
      have hrestgood : ∀ x ∈ rest, GoodField x := by
        intro x hx
        have hxm : x ∈ realNames sec.list := by
          rw [hnr]
          exact List.mem_cons_of_mem _ hx
        obtain ⟨h1, h2⟩ := mem_realNames hxm
        exact hsec.1 x h1 h2
      have hfresh : ∀ x ∈ rest, x ∉ [n] := by
        intro x hx
        simp only [List.mem_singleton]
        intro hxn
        subst hxn
        exact (List.nodup_cons.mp hnodup).1 hx
      rw [fold_names_push gid k sec hgid rest E MM [n] (metaOfSec sec) hrestgood hfresh
        (List.nodup_cons.mp hnodup).2
        (fun q hq hk => absurd (hk ▸ hE q hq) (by omega))
        (fun q hq hk => absurd (hk ▸ hMM q hq) (by omega))
        (stepMeta_fix sec)]
      rfl

/-- Folding the recovery loop over the rows of a whole tail of sections. -/
theorem fold_sections (gid : Str) (hgid : GoodField gid) :
    ∀ (secs : List GameSection) (k : Nat) (E : List (Nat × List Str))
      (MM : List (Nat × SectionMeta)) (acc : RestoreAcc),
      (∀ sec ∈ secs, GoodSection sec) →
      (∀ q ∈ E, q.1 < k) → (∀ q ∈ MM, q.1 < k) →
      (acc = ⟨[(gid, E)], [(gid, MM)]⟩ ∨ (acc = ⟨[], []⟩ ∧ E = [] ∧ MM = [])) →
      (List.foldl (processLine hIdx0) acc (sectionsRowsAux gid k secs)
         = ⟨[(gid, E ++ entriesAux k secs)], [(gid, MM ++ metasAux k secs)]⟩)
      ∨ (List.foldl (processLine hIdx0) acc (sectionsRowsAux gid k secs) = ⟨[], []⟩
         ∧ E = [] ∧ MM = [] ∧ entriesAux k secs = [] ∧ metasAux k secs = []) := by
  intro secs
  induction secs with
  | nil =>
    intro k E MM acc hg hE hMM hacc
    rcases hacc with rfl | ⟨rfl, rfl, rfl⟩
    · left
      simp [sectionsRowsAux, entriesAux, metasAux]
    · right
      simp [sectionsRowsAux, entriesAux, metasAux]
  | cons sec rest ih =>
    intro k E MM acc hg hE hMM hacc
    rw [show sectionsRowsAux gid k (sec :: rest)
        = sectionRows gid k sec ++ sectionsRowsAux gid (k + 1) rest from rfl,
      List.foldl_append,
      fold_one_section gid hgid k sec (hg sec (List.mem_cons_self _ _)) E MM hE hMM acc hacc]
    by_cases hr : realNames sec.list = []
    · rw [if_pos hr]
      have hrec := ih (k + 1) E MM acc (fun s hs => hg s (List.mem_cons_of_mem _ hs))
        (fun q hq => by have := hE q hq; omega)
        (fun q hq => by have := hMM q hq; omega) hacc
      have hent : entriesAux k (sec :: rest) = entriesAux (k + 1) rest := by
        simp [entriesAux, hr]
      have hmet : metasAux k (sec :: rest) = metasAux (k + 1) rest := by
        simp [metasAux, hr]
      rw [hent, hmet]
      exact hrec
    · rw [if_neg hr]
      have hrec := ih (k + 1) (E ++ [(k, realNames sec.list)]) (MM ++ [(k, metaOfSec sec)])
        ⟨[(gid, E ++ [(k, realNames sec.list)])], [(gid, MM ++ [(k, metaOfSec sec)])]⟩
        (fun s hs => hg s (List.mem_cons_of_mem _ hs))
        (by
          intro q hq
          rcases List.mem_append.mp hq with h | h
          · have := hE q h; omega
          · simp only [List.mem_singleton] at h
            subst h
            omega)
        (by
          intro q hq
          rcases List.mem_append.mp hq with h | h
          · have := hMM q h; omega
          · simp only [List.mem_singleton] at h
            subst h
            omega)
        (Or.inl rfl)
      rcases hrec with h | ⟨h, hE2, hM2, he2, hm2⟩
      · left
        rw [h]
        have hent : entriesAux k (sec :: rest)
            = [(k, realNames sec.list)] ++ entriesAux (k + 1) rest := by
          simp [entriesAux, hr]
        have hmet : metasAux k (sec :: rest)
            = [(k, metaOfSec sec)] ++ metasAux (k + 1) rest := by
          simp [metasAux, hr]
        rw [hent, hmet, ← List.append_assoc, ← List.append_assoc]
      · exact absurd hE2 (by simp)

/-- Folding the recovery loop from the empty state over one game's rows. -/
theorem fold_game (gid : Str) (hgid : GoodField gid) (secs : List GameSection)
    (hg : ∀ sec ∈ secs, GoodSection sec) (hne : entriesAux 0 secs ≠ []) :
    List.foldl (processLine hIdx0) ⟨[], []⟩ (sectionsRowsAux gid 0 secs)
      = ⟨[(gid, entriesAux 0 secs)], [(gid, metasAux 0 secs)]⟩ := by
  rcases fold_sections gid hgid secs 0 [] [] ⟨[], []⟩ hg (by simp) (by simp)
      (Or.inr ⟨rfl, rfl, rfl⟩) with h | ⟨h, -, -, he, -⟩
  · simpa using h
  · exact absurd he hne

end Roster

namespace Roster

/-! ### Reading the recovered maps back -/

theorem alGet_entriesAux (secs : List GameSection) :
    ∀ k idx, alGet (entriesAux k secs) (k + idx)
      = match secs[idx]? with
        | some sec => if realNames sec.list = [] then none else some (realNames sec.list)
        | none => none := by
  induction secs with
  | nil => intro k idx; simp [entriesAux, alGet]
  | cons sec rest ih =>
    intro k idx
    match idx with
    | 0 =>
      simp only [List.getElem?_cons_zero, Nat.add_zero]
      by_cases hr : realNames sec.list = []
      · rw [if_pos hr]
        have h0 : entriesAux k (sec :: rest) = entriesAux (k + 1) rest := by
          simp [entriesAux, hr]
        rw [h0, alGet_not_mem]
        intro p hp
        have := (entriesAux_keys rest (k + 1) p hp).1
        omega
      · rw [if_neg hr]
        have h0 : entriesAux k (sec :: rest)
            = (k, realNames sec.list) :: entriesAux (k + 1) rest := by
          simp [entriesAux, hr]
        rw [h0, alGet_cons, if_pos rfl]
    | idx + 1 =>
      simp only [List.getElem?_cons_succ]
      have h0 : entriesAux k (sec :: rest)
          = (if realNames sec.list = [] then [] else [(k, realNames sec.list)])
            ++ entriesAux (k + 1) rest := rfl
      rw [h0, alGet_append]
      have hk : k ≠ k + (idx + 1) := by omega
      have h1 : alGet (if realNames sec.list = []
          then ([] : List (Nat × List Str)) else [(k, realNames sec.list)]) (k + (idx + 1))
          = none := by
        by_cases hr : realNames sec.list = []
        · simp [hr, alGet]
        · rw [if_neg hr, alGet_cons, if_neg hk]
          rfl
      rw [h1]
      have h2 : k + (idx + 1) = (k + 1) + idx := by omega
      rw [h2, ih (k + 1) idx]

theorem alGet_metasAux (secs : List GameSection) :
    ∀ k idx, alGet (metasAux k secs) (k + idx)
      = match secs[idx]? with
        | some sec => if realNames sec.list = [] then none else some (metaOfSec sec)
        | none => none := by
  induction secs with
  | nil => intro k idx; simp [metasAux, alGet]
  | cons sec rest ih =>
    intro k idx
    match idx with
    | 0 =>
      simp only [List.getElem?_cons_zero, Nat.add_zero]
      by_cases hr : realNames sec.list = []
      · rw [if_pos hr]
        have h0 : metasAux k (sec :: rest) = metasAux (k + 1) rest := by
          simp [metasAux, hr]
        rw [h0, alGet_not_mem]
        intro p hp
        have := (metasAux_keys rest (k + 1) p hp).1
        omega
      · rw [if_neg hr]
        have h0 : metasAux k (sec :: rest)
            = (k, metaOfSec sec) :: metasAux (k + 1) rest := by
          simp [metasAux, hr]
        rw [h0, alGet_cons, if_pos rfl]
    | idx + 1 =>
      simp only [List.getElem?_cons_succ]
      have h0 : metasAux k (sec :: rest)
          = (if realNames sec.list = [] then [] else [(k, metaOfSec sec)])
            ++ metasAux (k + 1) rest := rfl
      rw [h0, alGet_append]
      have hk : k ≠ k + (idx + 1) := by omega
      have h1 : alGet (if realNames sec.list = []
          then ([] : List (Nat × SectionMeta)) else [(k, metaOfSec sec)]) (k + (idx + 1))
          = none := by
        by_cases hr : realNames sec.list = []
        · simp [hr, alGet]
        · rw [if_neg hr, alGet_cons, if_neg hk]
          rfl
      rw [h1]
      have h2 : k + (idx + 1) = (k + 1) + idx := by omega
      rw [h2, ih (k + 1) idx]

theorem foldl_max_init_le (l : List Nat) : ∀ a : Nat, a ≤ l.foldl max a := by
  induction l with
  | nil => intro a; simp
  | cons x t ih =>
    intro a
    calc a ≤ max a x := le_max_left a x
    _ ≤ t.foldl max (max a x) := ih (max a x)

theorem foldl_max_mem_le (l : List Nat) : ∀ a : Nat, ∀ x ∈ l, x ≤ l.foldl max a := by
  induction l with
  | nil => intro a x hx; simp at hx
  | cons y t ih =>
    intro a x hx
    rcases List.mem_cons.mp hx with rfl | hx
    · calc x ≤ max a x := le_max_right a x
      _ ≤ t.foldl max (max a x) := foldl_max_init_le t (max a x)
    · exact ih (max a y) x hx

theorem foldl_max_le (l : List Nat) : ∀ a n : Nat, a ≤ n → (∀ x ∈ l, x ≤ n) →
    l.foldl max a ≤ n := by
  induction l with
  | nil => intro a n ha _; simpa using ha
  | cons y t ih =>
    intro a n ha h
    exact ih (max a y) n (max_le ha (h y (List.mem_cons_self _ _)))
      (fun x hx => h x (List.mem_cons_of_mem _ hx))

/-- The last section, when it has real names, contributes the entry with the
largest section index. -/
theorem entriesAux_last_mem (secs : List GameSection) :
    ∀ k secL, secs.getLast? = some secL → realNames secL.list ≠ [] →
      (k + secs.length - 1, realNames secL.list) ∈ entriesAux k secs := by
  induction secs with
  | nil => intro k secL h; simp at h
  | cons sec rest ih =>
    intro k secL hlast hne
    match rest with
    | [] =>
      have hsec : sec = secL := by simpa using hlast
      subst hsec
      simp only [entriesAux, if_neg hne, List.length_cons, List.length_nil]
      simp
    | s :: t =>
      have hlast2 : (s :: t).getLast? = some secL := by
        rw [← hlast]
        exact (getLast?_cons_of_ne_nil sec (s :: t) (by simp)).symm
      have hmem := ih (k + 1) secL hlast2 hne
      have hlen : (k + 1) + (s :: t).length - 1 = k + (sec :: s :: t).length - 1 := by
        simp only [List.length_cons]
        omega
      rw [hlen] at hmem
      show _ ∈ (if realNames sec.list = [] then [] else [(k, realNames sec.list)])
        ++ entriesAux (k + 1) (s :: t)
      exact List.mem_append_right _ hmem

/-- With a populated last section, the recovered map's largest key is the
index of the last section. -/
theorem maxKey_entriesAux (secs : List GameSection) (secL : GameSection)
    (hlast : secs.getLast? = some secL) (hne : realNames secL.list ≠ []) :
    maxKey (entriesAux 0 secs) = secs.length - 1 := by
  have hsne : secs ≠ [] := by
    intro h
    rw [h] at hlast
    simp at hlast
  have hlen : 1 ≤ secs.length := by
    match secs with
    | [] => exact absurd rfl hsne
    | s :: t => simp
  apply Nat.le_antisymm
  · apply foldl_max_le
    · omega
    · intro x hx
      simp only [List.mem_map] at hx
      obtain ⟨p, hp, rfl⟩ := hx
      have := (entriesAux_keys secs 0 p hp).2
      omega
  · have hmem := entriesAux_last_mem secs 0 secL hlast hne
    have : (0 + secs.length - 1) ≤ maxKey (entriesAux 0 secs) := by
      apply foldl_max_mem_le
      simp only [List.mem_map]
      exact ⟨_, hmem, rfl⟩
    omega

end Roster

namespace Roster

/-! ### Structure of the snapshot text of a single game -/

theorem mem_sectionsRowsAux (gid : Str) (secs : List GameSection) :
    ∀ k r, r ∈ sectionsRowsAux gid k secs →
      ∃ i sec name, secs[i]? = some sec ∧ name ∈ realNames sec.list
        ∧ r = snapshotRow gid (k + i) sec name := by
  induction secs with
  | nil => intro k r hr; simp [sectionsRowsAux] at hr
  | cons sec rest ih =>
    intro k r hr
    rcases List.mem_append.mp hr with hr | hr
    · unfold sectionRows at hr
      obtain ⟨name, hn, rfl⟩ := List.mem_map.mp hr
      exact ⟨0, sec, name, by simp, hn, by rw [Nat.add_zero]⟩
    · obtain ⟨i, s, name, hs, hn, hrow⟩ := ih (k + 1) r hr
      refine ⟨i + 1, s, name, by simpa using hs, hn, ?_⟩
      rw [hrow]
      have : k + 1 + i = k + (i + 1) := by omega
      rw [this]

theorem sectionsRowsAux_ne_nil (gid : Str) (secs : List GameSection) (secL : GameSection)
    (hlast : secs.getLast? = some secL) (hne : realNames secL.list ≠ []) :
    ∀ k, sectionsRowsAux gid k secs ≠ [] := by
  induction secs with
  | nil => intro k; simp at hlast
  | cons sec rest ih =>
    intro k
    match rest with
    | [] =>
      have hsec : sec = secL := by simpa using hlast
      subst hsec
      show sectionRows gid k sec ++ sectionsRowsAux gid (k + 1) [] ≠ []
      intro happ
      have h1 : sectionRows gid k sec = [] := (List.append_eq_nil.mp happ).1
      unfold sectionRows at h1
      exact hne (List.map_eq_nil_iff.mp h1)
    | s :: t =>
      have hlast2 : (s :: t).getLast? = some secL := by
        rw [← hlast]
        exact (getLast?_cons_of_ne_nil sec (s :: t) (by simp)).symm
      have := ih hlast2 (k + 1)
      show sectionRows gid k sec ++ sectionsRowsAux gid (k + 1) (s :: t) ≠ []
      intro happ
      exact this (List.append_eq_nil.mp happ).2

theorem snapshotRow_ne_nil (gid : Str) (idx : Nat) (sec : GameSection) (name : Str)
    (hgid : gid ≠ []) : snapshotRow gid idx sec name ≠ [] := by
  intro hrow
  have h1 := snapshotRow_head gid idx sec name hgid
  rw [hrow] at h1
  have h2 : csvEscape gid ≠ [] := csvEscape_ne_nil gid hgid
  match he : csvEscape gid with
  | [] => exact h2 he
  | c :: t =>
    rw [he] at h1
    simp at h1

theorem joinSep_ne_nil (ls : List Str) (hne : ls ≠ []) (h : ∀ l ∈ ls, l ≠ []) :
    joinSep ['\n'] ls ≠ [] := by
  match ls with
  | [] => exact absurd rfl hne
  | [x] => exact h x (List.mem_cons_self _ _)
  | x :: y :: t =>
    have hj : joinSep ['\n'] (x :: y :: t) = x ++ '\n' :: joinSep ['\n'] (y :: t) := by
      simp [joinSep]
    rw [hj]
    intro happ
    have h2 : '\n' :: joinSep ['\n'] (y :: t) = [] := (List.append_eq_nil.mp happ).2
    simp at h2

theorem getLast?_joinSep (ls : List Str) (h : ∀ l ∈ ls, l ≠ []) :
    ∀ c, (joinSep ['\n'] ls).getLast? = some c → ∃ l ∈ ls, l.getLast? = some c := by
  induction ls with
  | nil => intro c hc; simp [joinSep] at hc
  | cons x rest ih =>
    intro c hc
    match rest with
    | [] => exact ⟨x, List.mem_cons_self _ _, hc⟩
    | y :: t =>
      have hj : joinSep ['\n'] (x :: y :: t) = x ++ '\n' :: joinSep ['\n'] (y :: t) := by
        simp [joinSep]
      rw [hj, List.getLast?_append_of_ne_nil _ (by simp),
        getLast?_cons_of_ne_nil _ _ (joinSep_ne_nil (y :: t) (by simp)
          (fun l hl => h l (List.mem_cons_of_mem _ hl)))] at hc
      obtain ⟨l, hl, hcl⟩ := ih (fun l hl => h l (List.mem_cons_of_mem _ hl)) c hc
      exact ⟨l, List.mem_cons_of_mem _ hl, hcl⟩

end Roster

namespace Roster

/-! ### The snapshot of a single game, processed end to end -/

theorem header_cols_computed :
    (parseCsvLine csvHeader).map (fun h => (jsTrim h).map Char.toLower)
      = ["gid".toList, "sectionidx".toList, "name".toList, "limit".toList,
         "backuplimit".toList] := by decide

theorem header_idx_gid :
    indexOfStr ["gid".toList, "sectionidx".toList, "name".toList, "limit".toList,
      "backuplimit".toList] "gid".toList = some 0 := by decide

theorem header_idx_section :
    indexOfStr ["gid".toList, "sectionidx".toList, "name".toList, "limit".toList,
      "backuplimit".toList] "sectionidx".toList = some 1 := by decide

theorem header_idx_name :
    indexOfStr ["gid".toList, "sectionidx".toList, "name".toList, "limit".toList,
      "backuplimit".toList] "name".toList = some 2 := by decide

theorem header_idx_limit :
    indexOfStr ["gid".toList, "sectionidx".toList, "name".toList, "limit".toList,
      "backuplimit".toList] "limit".toList = some 3 := by decide

theorem header_idx_backup :
    indexOfStr ["gid".toList, "sectionidx".toList, "name".toList, "limit".toList,
      "backuplimit".toList] "backuplimit".toList = some 4 := by decide

theorem anon_not_mem_realNames (l : List Str) : ANON ∉ realNames l := by
  intro h
  have := (mem_realNames h).2
  simp [isReal] at this

/-- The fully reduced recovery of a one-game snapshot. -/
theorem restore_snapshot_single (gid : Str) (g : Game) (now : Int)
    (hgid : GoodField gid)
    (hnames : ∀ sec ∈ g.sections, ∀ n ∈ sec.list, isReal n = true → GoodField n)
    (hnodup : ∀ sec ∈ g.sections, (realNames sec.list).Nodup)
    (secL : GameSection) (hlast : g.sections.getLast? = some secL)
    (hlne : realNames secL.list ≠ []) :
    restoreGamesFromCsv now [] (snapshotContent [(gid, g)])
      = [(gid, restoredGame now
          (buildSections (entriesAux 0 g.sections) (metasAux 0 g.sections)))] := by
  have hrows_eq : snapshotRows [(gid, g)] = sectionsRowsAux gid 0 g.sections := by
    simp [snapshotRows]
  have hrows_ne : sectionsRowsAux gid 0 g.sections ≠ [] :=
    sectionsRowsAux_ne_nil gid g.sections secL hlast hlne 0
  have hrow_prop : ∀ r ∈ sectionsRowsAux gid 0 g.sections,
      (∀ c ∈ r, c ≠ '\n' ∧ c ≠ '\r') ∧ r ≠ []
        ∧ (∀ c, r.getLast? = some c → isJsWs c = false) := by
    intro r hr
    obtain ⟨i, sec, name, hsec, hname, rfl⟩ := mem_sectionsRowsAux gid g.sections 0 r hr
    have hsecmem : sec ∈ g.sections := by
      have := List.getElem?_eq_some_iff.mp hsec
      obtain ⟨hi, hget⟩ := this
      rw [← hget]
      exact List.getElem_mem _
    obtain ⟨hnm, hnreal⟩ := mem_realNames hname
    have hgood : GoodField name := hnames sec hsecmem name hnm hnreal
    refine ⟨snapshotRow_clean gid _ sec name hgid.2.2 hgood.2.2, ?_, ?_⟩
    · exact snapshotRow_ne_nil gid _ sec name hgid.1
    · exact snapshotRow_last_not_ws gid _ sec name
  have hcontent : snapshotContent [(gid, g)]
      = (csvHeader ++ '\n' :: joinSep ['\n'] (sectionsRowsAux gid 0 g.sections)) ++ ['\n'] := by
    unfold snapshotContent
    rw [hrows_eq, if_neg hrows_ne]
    simp
  have hBne : joinSep ['\n'] (sectionsRowsAux gid 0 g.sections) ≠ [] :=
    joinSep_ne_nil _ hrows_ne (fun r hr => (hrow_prop r hr).2.1)
  have htrim : jsTrim (snapshotContent [(gid, g)])
      = csvHeader ++ '\n' :: joinSep ['\n'] (sectionsRowsAux gid 0 g.sections) := by
    rw [hcontent]
    apply jsTrim_concat_nl
    · intro c hc
      rw [head?_append_left _ _ (by decide)] at hc
      have hcg : c = 'g' := by
        have h0 : (csvHeader.head? = some 'g') := by decide
        rw [h0] at hc
        exact Option.some.inj hc.symm
      subst hcg
      decide
    · intro c hc
      rw [List.getLast?_append_of_ne_nil _ (by simp),
        getLast?_cons_of_ne_nil _ _ hBne] at hc
      obtain ⟨r, hr, hcr⟩ := getLast?_joinSep _ (fun r hr => (hrow_prop r hr).2.1) c hc
      exact (hrow_prop r hr).2.2 c hcr
  have hsplit : splitNl (jsTrim (snapshotContent [(gid, g)]))
      = csvHeader :: sectionsRowsAux gid 0 g.sections := by
    rw [htrim, splitNl_cons_chunk _ _ (by decide),
      splitNl_joinSep _ hrows_ne (fun r hr => (hrow_prop r hr).1)]
  have hcontent_ne : snapshotContent [(gid, g)] ≠ [] := by
    rw [hcontent]
    intro h
    have := (List.append_eq_nil.mp h).2
    simp at this
  have hglen : 1 ≤ (sectionsRowsAux gid 0 g.sections).length :=
    List.length_pos.mpr hrows_ne
  have hg2 : ¬ ((csvHeader :: sectionsRowsAux gid 0 g.sections).length ≤ 1) := by
    simp only [List.length_cons]
    omega
  have hhc : headerColsOf (snapshotContent [(gid, g)])
      = ["gid".toList, "sectionidx".toList, "name".toList, "limit".toList,
         "backuplimit".toList] := by
    unfold headerColsOf
    rw [hsplit]
    simp only [List.headD_cons]
    exact header_cols_computed
  unfold restoreGamesFromCsv
  rw [if_neg (by simp), if_neg hcontent_ne, hsplit]
  rw [if_neg hg2]
  rw [hhc, header_idx_gid, header_idx_section, header_idx_name,
    header_idx_limit, header_idx_backup]
  show restoreBuild now [] ⟨0, 1, 2, some 3, some 4⟩ (snapshotContent [(gid, g)]) = _
  unfold restoreBuild restoreAccOf
  rw [hsplit]
  simp only [List.drop_succ_cons, List.drop_zero]
  rw [show (⟨0, 1, 2, some 3, some 4⟩ : HeaderIdx) = hIdx0 from rfl]
  rw [fold_game gid hgid g.sections
    (fun sec hs => ⟨hnames sec hs, hnodup sec hs⟩)
    (by
      intro h
      have := entriesAux_last_mem g.sections 0 secL hlast hlne
      rw [h] at this
      simp at this)]
  rw [if_neg (by simp)]
  simp only [List.map_cons, List.map_nil, List.nil_append]
  rw [show alGet [(gid, metasAux 0 g.sections)] gid = some (metasAux 0 g.sections) by
    rw [alGet_cons, if_pos rfl]]
  rfl

end Roster

namespace Roster

/-- C1 (amended): for every game whose sections satisfy the data-model
invariants and whose gid and real names are nonempty, trim-invariant and free
of line breaks, and whose last section holds at least one real
(non-placeholder) name, writing the flattened CSV snapshot and rebuilding the
registry from it via the recovery path (starting from an empty registry)
yields a game whose per-section lists contain exactly the original real names
in their original order; anonymous placeholder entries are absent from the
restored game, each restored section's capacity is the maximum limit observed
across that section's rows (defaulting to `max(20, observed member count)`
when absent) and its waitlist capacity defaults to 5 when absent. -/
theorem C1_roundtrip (gid : Str) (g : Game) (now : Int)
    (hgid : GoodField gid)
    (hnames : ∀ sec ∈ g.sections, ∀ n ∈ sec.list, isReal n = true → GoodField n)
    (hnodup : ∀ sec ∈ g.sections, (realNames sec.list).Nodup)
    (secL : GameSection) (hlast : g.sections.getLast? = some secL)
    (hlne : realNames secL.list ≠ []) :
    ∃ g', restoreGamesFromCsv now [] (snapshotContent [(gid, g)]) = [(gid, g')]
      ∧ g'.scheduleTime = none
      ∧ g'.sections.length = g.sections.length
      ∧ ∀ i, i < g.sections.length →
          ∃ sec sec', g.sections[i]? = some sec ∧ g'.sections[i]? = some sec'
            ∧ sec'.list = realNames sec.list
            ∧ ANON ∉ sec'.list
            ∧ sec'.limit = (if sec.limit = 0 ∨ realNames sec.list = []
                then max 20 (realNames sec.list).length else sec.limit)
            ∧ sec'.backupLimit = some (if realNames sec.list = [] then 5
                else sec.backupLimit.getD 5) := by
  refine ⟨restoredGame now (buildSections (entriesAux 0 g.sections) (metasAux 0 g.sections)),
    restore_snapshot_single gid g now hgid hnames hnodup secL hlast hlne, rfl, ?_, ?_⟩
  · have hmax := maxKey_entriesAux g.sections secL hlast hlne
    have hlen : 1 ≤ g.sections.length := by
      match hs : g.sections with
      | [] => rw [hs] at hlast; simp at hlast
      | s :: t => simp
    show (buildSections (entriesAux 0 g.sections) (metasAux 0 g.sections)).length = _
    unfold buildSections
    rw [hmax, List.length_map, List.length_range]
    omega
  · intro i hi
    have hmax := maxKey_entriesAux g.sections secL hlast hlne
    have hlen : 1 ≤ g.sections.length := by
      match hs : g.sections with
      | [] => rw [hs] at hlast; simp at hlast
      | s :: t => simp
    have hsec : g.sections[i]? = some (g.sections.get ⟨i, hi⟩) := by
      rw [List.getElem?_eq_getElem hi, List.get_eq_getElem]
    set sec := g.sections.get ⟨i, hi⟩ with hsecdef
    have hget : (restoredGame now (buildSections (entriesAux 0 g.sections)
        (metasAux 0 g.sections))).sections[i]?
        = some (buildSection (entriesAux 0 g.sections) (metasAux 0 g.sections) i) := by
      show (buildSections (entriesAux 0 g.sections) (metasAux 0 g.sections))[i]? = _
      unfold buildSections
      rw [hmax, List.getElem?_map]
      have hir : i < g.sections.length - 1 + 1 := by omega
      rw [List.getElem?_range hir]
      rfl
    refine ⟨sec, _, hsec, hget, ?_, ?_, ?_⟩
    · show (buildSection (entriesAux 0 g.sections) (metasAux 0 g.sections) i).list
        = realNames sec.list
      unfold buildSection
      have hE := alGet_entriesAux g.sections 0 i
      rw [Nat.zero_add, hsec] at hE
      by_cases hr : realNames sec.list = []
      · rw [hE]
        simp [hr]
      · rw [hE]
        simp [hr]
    · by_cases hr : realNames sec.list = []
      · show ANON ∉ (buildSection (entriesAux 0 g.sections) (metasAux 0 g.sections) i).list
        unfold buildSection
        have hE := alGet_entriesAux g.sections 0 i
        rw [Nat.zero_add, hsec] at hE
        rw [hE]
        simp [hr]
      · show ANON ∉ (buildSection (entriesAux 0 g.sections) (metasAux 0 g.sections) i).list
        unfold buildSection
        have hE := alGet_entriesAux g.sections 0 i
        rw [Nat.zero_add, hsec] at hE
        rw [hE]
        simp only [if_neg hr, Option.getD_some]
        exact anon_not_mem_realNames sec.list
    · constructor
      · show (buildSection (entriesAux 0 g.sections) (metasAux 0 g.sections) i).limit = _
        unfold buildSection
        have hE := alGet_entriesAux g.sections 0 i
        have hM := alGet_metasAux g.sections 0 i
        rw [Nat.zero_add, hsec] at hE hM
        by_cases hr : realNames sec.list = []
        · rw [hE, hM]
          simp [hr]
        · rw [hE, hM]
          simp only [if_neg hr, Option.getD_some]
          by_cases hl : sec.limit = 0
          · simp [metaOfSec, hl]
          · simp [metaOfSec, hl, hr]
      · show (buildSection (entriesAux 0 g.sections) (metasAux 0 g.sections) i).backupLimit
          = _
        unfold buildSection
        have hE := alGet_entriesAux g.sections 0 i
        have hM := alGet_metasAux g.sections 0 i
        rw [Nat.zero_add, hsec] at hE hM
        by_cases hr : realNames sec.list = []
        · rw [hM]
          simp [hr]
        · rw [hM]
          simp only [if_neg hr, Option.getD_some]
          simp [metaOfSec, hr]

end Roster

namespace Roster

/-! ### Concrete instances for the round trip -/

/-- A concrete conversation id. -/
def c1Gid : Str := "G1".toList

/-- A concrete game with real names, an anonymous slot, and a populated last
section. -/
def c1Game : Game :=
  { title := "t".toList, note := [], active := true, startTime := 0,
    lastActiveTime := 0, scheduleTime := none, scheduleInput := none,
    anonymous := [], anonymousCount := 0,
    sections := [⟨"s".toList, 4, some 2, [],
      ["Alice".toList, ANON, "Bob".toList]⟩] }

/-- A concrete game whose only section holds nothing but an anonymous
placeholder. -/
def c1AnonGame : Game :=
  { title := "t".toList, note := [], active := true, startTime := 0,
    lastActiveTime := 0, scheduleTime := none, scheduleInput := none,
    anonymous := [], anonymousCount := 1,
    sections := [⟨"s".toList, 4, some 2, [], [ANON]⟩] }

/-- C1 counterexample: a game whose sections satisfy the data-model
invariants but contain no real name produces a header-only snapshot, and the
recovery path then rebuilds no game at all — refuting the claim that the
round trip always yields a game with the original per-section real names. -/
theorem C1_counterexample :
    restoreGamesFromCsv 0 [] (snapshotContent [(c1Gid, c1AnonGame)]) = []
      ∧ c1AnonGame.sections ≠ [] := by
  constructor
  · decide
  · decide

/-- C1 witness: the amended round trip applied to a concrete game. -/
theorem C1_roundtrip_witness :
    restoreGamesFromCsv 0 [] (snapshotContent [(c1Gid, c1Game)]) ≠ [] := by
  obtain ⟨g', h1, -⟩ := C1_roundtrip c1Gid c1Game 0 (by decide) (by decide) (by decide)
    _ rfl (by decide)
  rw [h1]
  simp

/-- C8: for every string, including strings containing commas, double quotes,
or line breaks, escaping it as a CSV field with the RFC4180-style escape
function and then parsing the resulting single-row line with the CSV line
parser yields the original string unchanged. -/
theorem C8_csv_escape_parse_roundtrip (s : Str) : parseCsvLine (csvEscape s) = [s] := by
  have h := parseCsvAux_escaped s [] [] (by simp)
  simpa [parseCsvLine] using h

end Roster

namespace Roster

/-! ### Roster-engine operations (the live `handleEvent` handlers) -/

/-- The shared duplicate-rejection reply. -/
def dupErr : Str := "名單已重複".toList

/-- The function `addToList` from the source at the level of one section's list: anonymous
placeholders are always appended, real names only when not already present. -/
def addToListStep (l : List Str) (n : Str) : List Str :=
  if n = ANON then l ++ [n]
  else if n ∈ l then l else l ++ [n]

/-- The join handler's duplicate check and batch append (`+N` handler):
returns the error reply when rejected together with the resulting section-0
list.  `new Set(xs).size !== xs.length` holds exactly when `xs` has a
repeated element, i.e. when `xs` is not `Nodup`. -/
def joinApply (cur : List Str) (names : List Str) : Option Str × List Str :=
  if names = [] then (none, cur)
  else
    let realN := names.filter isReal
    if realN.any (fun n => decide (n ∈ cur)) = true ∨ ¬ realN.Nodup then (some dupErr, cur)
    else (none, names.foldl addToListStep cur)

/-- The bulk-list handler's duplicate check and batch append
(`接龍名單 names…`): same shape, but checked against the raw batch. -/
def bulkListApply (cur : List Str) (names : List Str) : Option Str × List Str :=
  if names.any (fun n => decide (n ∈ cur)) = true ∨ ¬ names.Nodup then (some dupErr, cur)
  else (none, names.foldl addToListStep cur)

/-- The function `removeFromList`: delete the first occurrence of the name from every
section (`indexOf` + `splice`). -/
def removeFromListG (g : Game) (name : Str) : Game :=
  { g with sections := g.sections.map (fun s => { s with list := s.list.erase name }) }

/-- The function `removeAnon` scans section 0 backwards: remove the last occurrence of
the placeholder, i.e. the first occurrence in the reversed list. -/
def removeLastAnon (l : List Str) : List Str := (l.reverse.erase ANON).reverse

/-- The function `removeAnon`: drop the most recently added placeholder from section 0. -/
def removeAnonG (g : Game) : Game :=
  { g with sections := match g.sections with
    | [] => []
    | s :: t => { s with list := removeLastAnon s.list } :: t }

/-- The checked game creation (`接龍開始`): rejects a duplicated initial list
(ignoring placeholders), otherwise installs the fresh game object. -/
def createGame (title : Str) (limit backup : Nat) (initialList : List Str)
    (anonList : List Str) (anonCount : Nat) (scheduleTime : Option Int)
    (scheduleInput : Option Str) (now : Int) : Option Str × Option Game :=
  if ¬ (initialList.filter isReal).Nodup then (some dupErr, none)
  else (none, some
    { title := title, note := [], active := true, startTime := now,
      lastActiveTime := now, scheduleTime := scheduleTime,
      scheduleInput := scheduleInput, anonymous := anonList,
      anonymousCount := anonCount,
      sections := [⟨"報名名單".toList, limit, some backup, [], initialList⟩] })

/-- Replace section 0's fields in place. -/
def setSection0 (g : Game) (f : GameSection → GameSection) : Game :=
  { g with sections := match g.sections with
    | [] => []
    | s :: t => f s :: t }

/-- The modify-list error reply. -/
def listDupErr : Str := "❌ 名單中有重複的項目".toList

/-- The nothing-to-modify error reply. -/
def nothingErr : Str := "❌ 請指定要修改的項目（標題、人數、候補或名單）".toList

/-- The modify handler's title mutation. -/
def modifyTitleStep (g : Game) (titleOpt : Option Str) : Game :=
  match titleOpt with
  | some t => { g with title := jsTrim t }
  | none => g

/-- The modify handler's limit mutation (`if (newLimit > 0)`). -/
def modifyLimitStep (g : Game) (limitOpt : Option Nat) : Game :=
  match limitOpt with
  | some l => if 0 < l then setSection0 g (fun s => { s with limit := l }) else g
  | none => g

/-- The modify handler's backup mutation (`if (newBackupLimit >= 0)`, always
true for a `\d+` parse). -/
def modifyBackupStep (g : Game) (backupOpt : Option Nat) : Game :=
  match backupOpt with
  | some b => setSection0 g (fun s => { s with backupLimit := some b })
  | none => g

/-- The modify handler's state after the three metadata fields, before the
list field is examined. -/
def modifyMeta (g0 : Game) (titleOpt : Option Str) (limitOpt backupOpt : Option Nat) :
    Game :=
  modifyBackupStep (modifyLimitStep (modifyTitleStep g0 titleOpt) limitOpt) backupOpt

/-- Whether any metadata field produced a change (`hasChanges` without the
list field). -/
def modifyChanged (titleOpt : Option Str) (limitOpt backupOpt : Option Nat) : Bool :=
  titleOpt.isSome
    || (match limitOpt with | some l => decide (0 < l) | none => false)
    || backupOpt.isSome

/-- The modify handler (`接龍修改`): apply the present fields in source
order (title, limit, backup, then the checked list; earlier field mutations
survive a later list rejection, as in the source), and report
nothing-to-modify when no field produced a change. -/
def modifyApply (g0 : Game) (titleOpt : Option Str) (limitOpt backupOpt : Option Nat)
    (listOpt : Option (List Str)) : Option Str × Game :=
  match listOpt with
  | some newList =>
    if ¬ (newList.filter isReal).Nodup then
      (some listDupErr, modifyMeta g0 titleOpt limitOpt backupOpt)
    else (none, setSection0 (modifyMeta g0 titleOpt limitOpt backupOpt)
      (fun s => { s with list := newList }))
  | none =>
    if modifyChanged titleOpt limitOpt backupOpt = false then
      (some nothingErr, modifyMeta g0 titleOpt limitOpt backupOpt)
    else (none, modifyMeta g0 titleOpt limitOpt backupOpt)

/-- JavaScript array index assignment for `idx ≤ length` (the handler only
writes indices 0 and 1 of a nonempty array). -/
def setIdxSection (secs : List GameSection) (idx : Nat) (s : GameSection) :
    List GameSection :=
  if idx < secs.length then secs.set idx s else secs ++ [s]

/-- The section-configuration handler (`接龍{…}` / `接龍2{…}`): rebuild the
section's metadata from the brace parameters while keeping its list.
`parseInt(p) || dflt` falls back on NaN and zero; a negative limit, which the
generic brace grammar could express, is clamped to zero here — the entry
list, which is all the invariant claims inspect, is untouched either way. -/
def configuredSection (g : Game) (idx : Nat) (p : List Str) : GameSection :=
  { title := if (p.getD 0 []) = [] then "區段".toList ++ natToStr (idx + 1)
      else p.getD 0 []
    limit := match parseJsInt (p.getD 1 []) with
      | some v => if v = 0 then 10 else v.toNat
      | none => 10
    backupLimit := some (match parseJsInt (p.getD 2 []) with
      | some v => if v = 0 then 0 else v.toNat
      | none => 0)
    label := p.getD 3 []
    list := match g.sections[idx]? with
      | some s => s.list
      | none => [] }

/-- The full section-reconfiguration step. -/
def configSection (g : Game) (idx : Nat) (p : List Str) : Game :=
  { g with sections := setIdxSection g.sections idx (configuredSection g idx p) }

/-- The clear handler (`接龍清空`): empty every section's list. -/
def clearLists (g : Game) : Game :=
  { g with sections := g.sections.map (fun s => { s with list := [] }) }

/-! ### Scheduler (`checkSchedules`) -/

/-- One game's treatment during a scan: a falsy (absent or zero) schedule is
skipped; a due schedule is cleared and one push for that conversation is
recorded.  (`scheduleTime` is numeric in this model, so the source's
`isNaN` repair branch is vacuous.) -/
def stepSched (now : Int) (e : Str × Game) : (Str × Game) × List Str :=
  match e.2.scheduleTime with
  | none => (e, [])
  | some t =>
    if t = 0 then (e, [])
    else if t ≤ now then ((e.1, { e.2 with scheduleTime := none }), [e.1])
    else (e, [])

/-- The function `checkSchedules`: scan every game, clearing due schedules and recording
the pushes attempted.  The push dispatch is try/caught in the source, so the
registry outcome does not depend on whether each dispatch succeeds. -/
def checkSchedules (now : Int) (reg : Registry) : Registry × List Str :=
  ((reg.map (stepSched now)).map Prod.fst,
   ((reg.map (stepSched now)).map Prod.snd).flatten)

/-! ### Rendering (`sendList`) -/

/-- Membership of a name in the legacy explicit anonymous list or equality
with the placeholder token. -/
def isAnonEntry (anns : List Str) (n : Str) : Bool :=
  decide (n = ANON) || anns.contains n

/-- The lines the confirmed-portion loop emits for index `i` (`lst[i]?` is
`some` exactly when `i < sec.list.length`). -/
def confirmedSlot (anns : List Str) (label : Str) (lst : List Str) (limit : Nat)
    (i : Nat) : List Str :=
  match lst[i]? with
  | some name =>
    if isAnonEntry anns name
        && (match lst[i + 1]? with
            | some m => isAnonEntry anns m
            | none => false) then []
    else [label ++ natToStr (i + 1) ++ ". ".toList
      ++ (if isAnonEntry anns name then "***".toList else name)]
  | none =>
    if i = limit - 1 then [label ++ natToStr (i + 1) ++ ". ".toList]
    else if i = lst.length then ["..".toList]
    else []

/-- The confirmed-portion loop `for (i = 0; i < limit; i++)` from index `i`
with `rem` iterations left. -/
def confirmedAux (anns : List Str) (label : Str) (lst : List Str) (limit : Nat) :
    Nat → Nat → List Str
  | _, 0 => []
  | i, rem + 1 => confirmedSlot anns label lst limit i
      ++ confirmedAux anns label lst limit (i + 1) rem

/-- All confirmed-portion lines of a section. -/
def confirmedLines (anns : List Str) (label : Str) (lst : List Str) (limit : Nat) :
    List Str :=
  confirmedAux anns label lst limit 0 limit

/-- One waitlist line: only positions within `limit + backupLimit` print, and
masking consults only the legacy anonymous list. -/
def waitSlot (anns : List Str) (lst : List Str) (limit backup : Nat) (i : Nat) : List Str :=
  if i < limit + backup then
    match lst[i]? with
    | some name => ["候補".toList ++ natToStr (i - limit + 1) ++ ". ".toList
        ++ (if anns.contains name then "***".toList else name)]
    | none => []
  else []

/-- The waitlist loop `for (i = limit; i < list.length; i++)`. -/
def waitAux (anns : List Str) (lst : List Str) (limit backup : Nat) :
    Nat → Nat → List Str
  | _, 0 => []
  | i, rem + 1 => waitSlot anns lst limit backup i
      ++ waitAux anns lst limit backup (i + 1) rem

/-- The waitlist block: present once the list has reached capacity.  An
absent `backupLimit` makes the JavaScript bound `limit + undefined` NaN, so
no line prints, like a backup capacity of zero. -/
def waitlistLines (anns : List Str) (lst : List Str) (limit : Nat)
    (backup : Nat) : List Str :=
  if limit ≤ lst.length then
    "--- 候補 ---".toList :: waitAux anns lst limit backup limit (lst.length - limit)
  else []

/-- All lines of one section: banner, confirmed portion, waitlist block. -/
def sectionLines (anns : List Str) (sec : GameSection) : List Str :=
  ("【".toList ++ sec.title ++ "】".toList)
    :: (confirmedLines anns sec.label sec.list sec.limit
      ++ waitlistLines anns sec.list sec.limit (sec.backupLimit.getD 0))

/-- Join a list of lines, each followed by a newline. -/
def linesText (ls : List Str) : Str := (ls.map (fun l => l ++ ['\n'])).flatten

/-- The full message `sendList` builds and finally trims. -/
def sendListText (g : Game) (pre : Str) : Str :=
  jsTrim (pre ++ '\n' :: g.title ++ '\n'
    :: (g.sections.map (fun sec => '\n' :: linesText (sectionLines g.anonymous sec))).flatten
    ++ (if g.note ≠ [] then '\n' :: ("📝 ".toList ++ g.note) else []))

/-! ### The leave handler (`-N name`) -/

/-- A reply sent back for one command: either a short error text or the
rendered roster. -/
inductive BotReply : Type
  | err (msg : Str)
  | roster (text : Str)
deriving Repr, DecidableEq

/-- Whether a reply is the rendered roster. -/
def isRosterReply : BotReply → Bool
  | .err _ => false
  | .roster _ => true

/-- The inactive-game rejection text. -/
def endedErr : Str := "❌ 此接龍已結束\n請使用「接龍開始」建立新的接龍".toList

/-- The premature-leave rejection (the source appends the formatted schedule
time, which no claim inspects). -/
def notStartedErr : Str := "尚未開始".toList

/-- Substring test, modelling `/匿名/.test(name)`. -/
def containsSub (pat : Str) : Str → Bool
  | [] => decide (pat = [])
  | c :: t => pat.isPrefixOf (c :: t) || containsSub pat t

/-- The gate `games[gid].scheduleTime && Number(...) > Date.now()`: a zero
timestamp is falsy in JavaScript and does not gate. -/
def schedGateActive (now : Int) (g : Game) : Bool :=
  match g.scheduleTime with
  | some t => decide (t ≠ 0) && decide (now < t)
  | none => false

/-- The leave handler for an explicitly named removal (`-1 name`): active and
schedule gates, then anonymous-flag dispatch on the 匿名 substring, then the
roster reply.  (The existence check on `games[gid]` is the caller's.) -/
def leaveHandler (now : Int) (g : Game) (name : Str) : Game × BotReply :=
  if g.active = false then (g, .err endedErr)
  else if schedGateActive now g then (g, .err notStartedErr)
  else
    let g' := if containsSub "匿名".toList name then removeAnonG g
      else removeFromListG g name
    (g', .roster (sendListText g' []))

end Roster

namespace Roster

/-! ### C2: all-or-nothing duplicate rejection -/

/-- C2: for every join or bulk-list intent adding one or more real
(non-anonymous) names, if any new name duplicates another new name in the
same batch or any name already in the target section's list, the whole batch
is rejected with the single shared error reply and the section's list is
returned unchanged (identical length and order); zero names are added. -/
theorem C2_all_or_nothing (cur names : List Str)
    (hne : names ≠ []) (hreal : ∀ n ∈ names, n ≠ ANON)
    (hdup : (∃ n ∈ names, n ∈ cur) ∨ ¬ names.Nodup) :
    joinApply cur names = (some dupErr, cur)
      ∧ bulkListApply cur names = (some dupErr, cur) := by
  have hfilter : names.filter isReal = names :=
    List.filter_eq_self.mpr (fun n hn => by simp [isReal, hreal n hn])
  have hcond : names.any (fun n => decide (n ∈ cur)) = true ∨ ¬ names.Nodup := by
    rcases hdup with ⟨n, hn, hc⟩ | h
    · left
      rw [List.any_eq_true]
      exact ⟨n, hn, by simpa using hc⟩
    · right
      exact h
  constructor
  · unfold joinApply
    rw [if_neg hne]
    simp only [hfilter]
    rw [if_pos hcond]
  · unfold bulkListApply
    rw [if_pos hcond]

/-- C2 witness at a concrete duplicate batch. -/
theorem C2_witness :
    joinApply ["A".toList] ["A".toList] = (some dupErr, ["A".toList])
      ∧ bulkListApply ["A".toList] ["A".toList] = (some dupErr, ["A".toList]) :=
  C2_all_or_nothing ["A".toList] ["A".toList] (by decide) (by decide)
    (Or.inl ⟨"A".toList, by decide, by decide⟩)

/-! ### C9: leave semantics -/

theorem map_eq_self_of {α : Type} (l : List α) (f : α → α) (h : ∀ x ∈ l, f x = x) :
    l.map f = l := by
  induction l with
  | nil => rfl
  | cons x t ih =>
    rw [List.map_cons, h x (List.mem_cons_self _ _),
      ih (fun y hy => h y (List.mem_cons_of_mem _ hy))]

theorem count_le_one_of_nodup (a : Str) (l : List Str) (h : l.Nodup) : l.count a ≤ 1 := by
  induction l with
  | nil => simp
  | cons b t ih =>
    obtain ⟨hb, ht⟩ := List.nodup_cons.mp h
    rw [List.count_cons]
    by_cases hba : a = b
    · subst hba
      have : t.count a = 0 := List.count_eq_zero_of_not_mem hb
      simp [this]
    · have hnb : ¬ (b = a) := fun h => hba h.symm
      simp only [beq_iff_eq, if_neg hnb, if_neg hba, Nat.add_zero]
      exact ih ht

theorem count_filter_real (name : Str) (hname : name ≠ ANON) :
    ∀ l : List Str, (realNames l).count name = l.count name := by
  intro l
  induction l with
  | nil => rfl
  | cons b t ih =>
    by_cases hb : isReal b = true
    · rw [show realNames (b :: t) = b :: realNames t by
        unfold realNames
        rw [List.filter_cons_of_pos hb]]
      rw [List.count_cons, List.count_cons, ih]
    · have hban : b = ANON := by
        by_contra hne2
        exact hb (by simp [isReal, hne2])
      rw [show realNames (b :: t) = realNames t by
        unfold realNames
        rw [List.filter_cons_of_neg hb]]
      rw [List.count_cons, ih]
      have h3 : ¬ (name = b) := by
        rw [hban]
        exact hname
      have h4 : ¬ (b = name) := fun h => h3 h.symm
      simp [h3, h4]

theorem erase_eq_filter_of_count_le_one (a : Str) :
    ∀ l : List Str, l.count a ≤ 1 → l.erase a = l.filter (fun x => decide (x ≠ a)) := by
  intro l
  induction l with
  | nil => intro _; rfl
  | cons b t ih =>
    intro hc
    by_cases hb : b = a
    · subst hb
      rw [List.erase_cons_head]
      rw [List.count_cons_self] at hc
      have hnot : b ∉ t := by
        rw [← List.count_pos_iff]
        omega
      rw [List.filter_cons_of_neg (by simp)]
      symm
      apply List.filter_eq_self.mpr
      intro x hx
      simp only [decide_eq_true_eq]
      intro hxa
      subst hxa
      exact hnot hx
    · rw [List.erase_cons_tail (by simp [hb]), List.filter_cons_of_pos (by simp [hb])]
      rw [List.count_cons_of_ne (fun h => hb h.symm)] at hc
      rw [ih hc]

/-- C9: a leave intent naming "anonymous" removes exactly the most recently
added (last-positioned) anonymous placeholder from section 0 and no other
entry; a leave intent naming a real name removes that name from every section
in which it appears, while all other entries keep their relative order. -/
theorem C9_leave_semantics :
    (∀ (g : Game) (s : GameSection) (t : List GameSection) (l1 l2 : List Str),
      g.sections = s :: t → s.list = l1 ++ ANON :: l2 → ANON ∉ l2 →
      (removeAnonG g).sections = { s with list := l1 ++ l2 } :: t)
    ∧ (∀ (g : Game) (name : Str), name ≠ ANON →
      (∀ sec ∈ g.sections, (realNames sec.list).Nodup) →
      (removeFromListG g name).sections
        = g.sections.map (fun sec =>
            { sec with list := sec.list.filter (fun x => decide (x ≠ name)) })) := by
  constructor
  · intro g s t l1 l2 hsecs hlist hanon
    have hrem : removeLastAnon s.list = l1 ++ l2 := by
      unfold removeLastAnon
      rw [hlist]
      have h1 : (l1 ++ ANON :: l2).reverse = l2.reverse ++ (ANON :: l1.reverse) := by
        simp
      rw [h1, List.erase_append_right _ (by simpa using hanon), List.erase_cons_head]
      simp
    show (match g.sections with
      | [] => []
      | s :: t => { s with list := removeLastAnon s.list } :: t) = _
    rw [hsecs]
    show { s with list := removeLastAnon s.list } :: t = _
    rw [hrem]
  · intro g name hname hnodup
    have hmap : (removeFromListG g name).sections
        = g.sections.map (fun s => { s with list := s.list.erase name }) := rfl
    rw [hmap]
    apply List.map_congr_left
    intro sec hsec
    have hcount : sec.list.count name ≤ 1 := by
      have h2 : (realNames sec.list).count name = sec.list.count name :=
        count_filter_real name hname sec.list
      have h1 : (realNames sec.list).count name ≤ 1 :=
        count_le_one_of_nodup name _ (hnodup sec hsec)
      omega
    rw [erase_eq_filter_of_count_le_one name sec.list hcount]

end Roster

namespace Roster

/-- A concrete two-section game for the leave-semantics witness. -/
def c9Sec1 : GameSection := ⟨"s1".toList, 4, some 2, [], ["A".toList, ANON, "B".toList]⟩

/-- The second section of the witness game. -/
def c9Sec2 : GameSection := ⟨"s2".toList, 4, some 2, [], ["A".toList]⟩

/-- The witness game for C9. -/
def c9Game : Game :=
  { title := "t".toList, note := [], active := true, startTime := 0,
    lastActiveTime := 0, scheduleTime := none, scheduleInput := none,
    anonymous := [], anonymousCount := 0, sections := [c9Sec1, c9Sec2] }

/-- C9 witness: both removal behaviours at a concrete game. -/
theorem C9_witness :
    (removeAnonG c9Game).sections
        = { c9Sec1 with list := ["A".toList] ++ ["B".toList] } :: [c9Sec2]
      ∧ (removeFromListG c9Game "A".toList).sections
        = c9Game.sections.map (fun sec =>
            { sec with list := sec.list.filter (fun x => decide (x ≠ "A".toList)) }) :=
  ⟨C9_leave_semantics.1 c9Game c9Sec1 [c9Sec2] ["A".toList] ["B".toList] rfl rfl
      (by decide),
   C9_leave_semantics.2 c9Game "A".toList (by decide) (by decide)⟩

/-! ### C10: leave with an absent name -/

/-- C10 (amended): for every ACTIVE game with no pending future schedule,
handling a leave command that names a person appearing in no section's list
leaves the entire game state unchanged (every section's list, limits, title,
scheduleTime, and lastActiveTime keep their prior values) and replies with
the current roster rather than an error message.  (Naming a person means the
text does not carry the anonymous flag, i.e. does not contain 匿名.) -/
theorem C10_leave_absent_name_noop (now : Int) (g : Game) (name : Str)
    (hact : g.active = true)
    (hsched : schedGateActive now g = false)
    (hanon : containsSub "匿名".toList name = false)
    (habsent : ∀ sec ∈ g.sections, name ∉ sec.list) :
    leaveHandler now g name = (g, .roster (sendListText g [])) := by
  unfold leaveHandler
  rw [if_neg (by simp [hact]), if_neg (by simp [hsched])]
  have hrem : removeFromListG g name = g := by
    unfold removeFromListG
    have hsecs : g.sections.map (fun s => { s with list := s.list.erase name })
        = g.sections := by
      apply map_eq_self_of
      intro sec hsec
      rw [List.erase_of_not_mem (habsent sec hsec)]
    rw [hsecs]
  simp only [hanon, Bool.false_eq_true, if_false, hrem]

/-- The inactive game refuting C10 as stated. -/
def c10Inactive : Game :=
  { title := "t".toList, note := [], active := false, startTime := 0,
    lastActiveTime := 0, scheduleTime := none, scheduleInput := none,
    anonymous := [], anonymousCount := 0,
    sections := [⟨"s".toList, 4, some 2, [], []⟩] }

/-- C10 counterexample: an inactive game with no pending schedule and an
absent name replies with the end-of-game error, not the roster. -/
theorem C10_counterexample :
    leaveHandler 100 c10Inactive "X".toList = (c10Inactive, .err endedErr)
      ∧ isRosterReply (leaveHandler 100 c10Inactive "X".toList).2 = false := by
  constructor
  · rfl
  · rfl

/-- The active game used as the C10 witness. -/
def c10Active : Game :=
  { title := "t".toList, note := [], active := true, startTime := 0,
    lastActiveTime := 0, scheduleTime := none, scheduleInput := none,
    anonymous := [], anonymousCount := 0,
    sections := [⟨"s".toList, 4, some 2, [], ["A".toList]⟩] }

/-- C10 witness at a concrete active game and absent name. -/
theorem C10_witness :
    leaveHandler 5 c10Active "X".toList
      = (c10Active, .roster (sendListText c10Active [])) :=
  C10_leave_absent_name_noop 5 c10Active "X".toList (by decide) (by decide) (by decide)
    (by decide)

end Roster

namespace Roster

/-! ### C3: at-most-once schedule firing -/

theorem stepSched_key (now : Int) (e : Str × Game) : (stepSched now e).1.1 = e.1 := by
  unfold stepSched
  match e.2.scheduleTime with
  | none => rfl
  | some t =>
    by_cases h0 : t = 0
    · simp [h0]
    · by_cases hle : t ≤ now
      · simp [h0, hle]
      · simp [h0, hle]

theorem stepSched_pushes (now : Int) (e : Str × Game) :
    (stepSched now e).2 = [] ∨ (stepSched now e).2 = [e.1] := by
  unfold stepSched
  match e.2.scheduleTime with
  | none => exact Or.inl rfl
  | some t =>
    by_cases h0 : t = 0
    · simp [h0]
    · by_cases hle : t ≤ now
      · simp [h0, hle]
      · simp [h0, hle]

/-- If every entry keyed `gid` has no schedule (and other entries have other
keys or none due), the scan pushes nothing for `gid`. -/
theorem pushes_count_zero (now2 : Int) (gid : Str) :
    ∀ reg : Registry, (∀ e ∈ reg, e.1 = gid → e.2.scheduleTime = none) →
      (checkSchedules now2 reg).2.count gid = 0 := by
  intro reg
  induction reg with
  | nil => intro _; rfl
  | cons e rest ih =>
    intro h
    have hrest := ih (fun x hx => h x (List.mem_cons_of_mem _ hx))
    show ((stepSched now2 e).2 ++ (checkSchedules now2 rest).2).count gid = 0
    rw [List.count_append]
    by_cases hkey : e.1 = gid
    · have hsched : e.2.scheduleTime = none := h e (List.mem_cons_self _ _) hkey
      have hp : (stepSched now2 e).2 = [] := by
        unfold stepSched
        rw [hsched]
      rw [hp, hrest]
      simp
    · rcases stepSched_pushes now2 e with hp | hp
      · rw [hp, hrest]
        simp
      · rw [hp, hrest]
        have hne : ¬ (gid = e.1) := fun h2 => hkey h2.symm
        simp [List.count_singleton, hne]

/-- The scan's effect around the unique entry holding `gid`. -/
theorem checkSchedules_hit (now : Int) (gid : Str) (g : Game) (t : Int)
    (ht : g.scheduleTime = some t) (htz : t ≠ 0) (hdue : t ≤ now) :
    ∀ reg : Registry, (reg.map Prod.fst).Nodup → (gid, g) ∈ reg →
      alGet (checkSchedules now reg).1 gid = some { g with scheduleTime := none }
        ∧ (checkSchedules now reg).2.count gid = 1
        ∧ (∀ e ∈ (checkSchedules now reg).1, e.1 = gid → e.2.scheduleTime = none) := by
  have hhit : stepSched now (gid, g) = ((gid, { g with scheduleTime := none }), [gid]) := by
    unfold stepSched
    rw [ht]
    simp [htz, hdue]
  intro reg
  induction reg with
  | nil => intro _ hmem; simp at hmem
  | cons e rest ih =>
    intro hkeys hmem
    have hfst : (checkSchedules now (e :: rest)).1
        = (stepSched now e).1 :: (checkSchedules now rest).1 := rfl
    have hsnd : (checkSchedules now (e :: rest)).2
        = (stepSched now e).2 ++ (checkSchedules now rest).2 := rfl
    obtain ⟨hnotin, hkeys2⟩ := List.nodup_cons.mp hkeys
    have hmem_pre : ∀ e2 ∈ (checkSchedules now rest).1, ∃ x ∈ rest, (stepSched now x).1 = e2 := by
      intro e2 he2
      have he3 : e2 ∈ (rest.map (stepSched now)).map Prod.fst := he2
      rw [List.map_map] at he3
      obtain ⟨x, hx, hxe⟩ := List.mem_map.mp he3
      exact ⟨x, hx, hxe⟩
    rcases List.mem_cons.mp hmem with heq | hmem2
    · subst heq
      have hrestkeys : ∀ x ∈ rest, x.1 ≠ gid := by
        intro x hx hxg
        exact hnotin (by
          rw [← hxg]
          exact List.mem_map.mpr ⟨x, hx, rfl⟩)
      have hrest0 : (checkSchedules now rest).2.count gid = 0 :=
        pushes_count_zero now gid rest (fun x hx hxg => absurd hxg (hrestkeys x hx))
      refine ⟨?_, ?_, ?_⟩
      · rw [hfst, hhit, alGet_cons, if_pos rfl]
      · rw [hsnd, hhit, List.count_append, hrest0]
        simp
      · intro e2 he2 hkey2
        rw [hfst, hhit] at he2
        rcases List.mem_cons.mp he2 with rfl | he3
        · rfl
        · obtain ⟨x, hx, hxe⟩ := hmem_pre e2 he3
          have hx1 : e2.1 = x.1 := by rw [← hxe, stepSched_key]
          exact absurd (by rw [← hx1, hkey2]) (hrestkeys x hx)
    · have hgidrest : gid ∈ rest.map Prod.fst := List.mem_map.mpr ⟨(gid, g), hmem2, rfl⟩
      have hekey : e.1 ≠ gid := fun h => hnotin (h ▸ hgidrest)
      obtain ⟨ih1, ih2, ih3⟩ := ih hkeys2 hmem2
      refine ⟨?_, ?_, ?_⟩
      · rw [hfst, alGet_cons, if_neg (by rw [stepSched_key]; exact hekey), ih1]
      · rw [hsnd, List.count_append, ih2]
        rcases stepSched_pushes now e with hp | hp
        · rw [hp]
          simp
        · rw [hp]
          have hne : ¬ (gid = e.1) := fun h2 => hekey h2.symm
          simp [List.count_singleton, hne]
      · intro e2 he2 hkey2
        rw [hfst] at he2
        rcases List.mem_cons.mp he2 with rfl | he3
        · exfalso
          apply hekey
          rw [← stepSched_key now e]
          exact hkey2
        · exact ih3 e2 he3 hkey2

/-- C3 (amended): for every game with a nonzero `scheduleTime <= now` at the
time of a scheduler scan, that scan clears `scheduleTime` and triggers
exactly one push for that game; the dispatch is try/caught after the clear,
so a failure does not restore the schedule, and any later scan run before a
new schedule is set triggers zero further pushes for that game.  (A zero
timestamp is falsy in JavaScript: such a game is skipped entirely, which is
what refutes the claim as stated.) -/
theorem C3_schedule_fire_once (now : Int) (reg : Registry) (gid : Str) (g : Game)
    (t : Int) (hkeys : (reg.map Prod.fst).Nodup) (hmem : (gid, g) ∈ reg)
    (ht : g.scheduleTime = some t) (htz : t ≠ 0) (hdue : t ≤ now) :
    alGet (checkSchedules now reg).1 gid = some { g with scheduleTime := none }
      ∧ (checkSchedules now reg).2.count gid = 1
      ∧ ∀ now2, (checkSchedules now2 (checkSchedules now reg).1).2.count gid = 0 := by
  obtain ⟨h1, h2, h3⟩ := checkSchedules_hit now gid g t ht htz hdue reg hkeys hmem
  exact ⟨h1, h2, fun now2 => pushes_count_zero now2 gid _ h3⟩

/-- A game whose schedule timestamp is exactly zero. -/
def c3ZeroGame : Game :=
  { title := "t".toList, note := [], active := true, startTime := 0,
    lastActiveTime := 0, scheduleTime := some 0, scheduleInput := none,
    anonymous := [], anonymousCount := 0,
    sections := [⟨"s".toList, 4, some 2, [], []⟩] }

/-- C3 counterexample: a game with `scheduleTime = 0 <= now` is skipped by
the scan — the schedule is not cleared and zero pushes fire, refuting the
claim as stated for every game with `scheduleTime <= now`. -/
theorem C3_counterexample :
    checkSchedules 100 [("G".toList, c3ZeroGame)] = ([("G".toList, c3ZeroGame)], [])
      ∧ c3ZeroGame.scheduleTime = some 0 ∧ (0 : Int) ≤ 100 := by
  refine ⟨rfl, rfl, by decide⟩

/-- The due game used as the C3 witness. -/
def c3DueGame : Game :=
  { title := "t".toList, note := [], active := true, startTime := 0,
    lastActiveTime := 0, scheduleTime := some 50, scheduleInput := none,
    anonymous := [], anonymousCount := 0,
    sections := [⟨"s".toList, 4, some 2, [], []⟩] }

/-- C3 witness at a concrete one-game registry with a due nonzero schedule. -/
theorem C3_witness :
    alGet (checkSchedules 100 [("G".toList, c3DueGame)]).1 "G".toList
        = some { c3DueGame with scheduleTime := none }
      ∧ (checkSchedules 100 [("G".toList, c3DueGame)]).2.count "G".toList = 1
      ∧ ∀ now2, (checkSchedules now2
          (checkSchedules 100 [("G".toList, c3DueGame)]).1).2.count "G".toList = 0 :=
  C3_schedule_fire_once 100 [("G".toList, c3DueGame)] "G".toList c3DueGame 50
    (by decide) (by decide) rfl (by decide) (by decide)

end Roster

namespace Roster

/-! ### C4: the per-section distinctness invariant -/

/-- The data-model invariant on one section list: all non-placeholder names
are pairwise distinct. -/
def SecOkL (l : List Str) : Prop := (realNames l).Nodup

instance (l : List Str) : Decidable (SecOkL l) := by
  unfold SecOkL
  infer_instance

/-- The invariant over a whole game. -/
def GameOk (g : Game) : Prop := ∀ sec ∈ g.sections, SecOkL sec.list

instance (g : Game) : Decidable (GameOk g) := by
  unfold GameOk
  infer_instance

theorem SecOkL_nil : SecOkL [] := by
  unfold SecOkL realNames
  simp

theorem SecOkL_of_sublist {l l' : List Str} (h : SecOkL l) (hs : List.Sublist l' l) : SecOkL l' :=
  List.Nodup.sublist (List.Sublist.filter isReal hs) h

theorem SecOkL_erase (l : List Str) (n : Str) (h : SecOkL l) : SecOkL (l.erase n) :=
  SecOkL_of_sublist h (List.erase_sublist n l)

theorem SecOkL_reverse (l : List Str) (h : SecOkL l) : SecOkL l.reverse := by
  unfold SecOkL realNames at *
  rw [List.filter_reverse, List.nodup_reverse]
  exact h

theorem SecOkL_removeLastAnon (l : List Str) (h : SecOkL l) :
    SecOkL (removeLastAnon l) := by
  unfold removeLastAnon
  exact SecOkL_reverse _ (SecOkL_erase _ _ (SecOkL_reverse l h))

theorem SecOkL_addToListStep (l : List Str) (n : Str) (h : SecOkL l) :
    SecOkL (addToListStep l n) := by
  unfold addToListStep
  by_cases hn : n = ANON
  · rw [if_pos hn]
    unfold SecOkL realNames at *
    rw [List.filter_append]
    have : List.filter isReal [n] = [] := by
      simp [hn, isReal]
    rw [this, List.append_nil]
    exact h
  · rw [if_neg hn]
    by_cases hmem : n ∈ l
    · rw [if_pos hmem]
      exact h
    · rw [if_neg hmem]
      unfold SecOkL realNames at *
      rw [List.filter_append, List.nodup_append]
      refine ⟨h, ?_, ?_⟩
      · exact List.Nodup.filter isReal (List.nodup_singleton n)
      · intro a ha hb
        simp only [List.filter_cons, List.filter_nil] at hb
        by_cases hr : isReal n = true
        · rw [if_pos hr] at hb
          simp only [List.mem_singleton] at hb
          subst hb
          exact hmem (List.mem_of_mem_filter ha)
        · rw [if_neg hr] at hb
          simp at hb

theorem SecOkL_foldl_add (names : List Str) :
    ∀ l, SecOkL l → SecOkL (names.foldl addToListStep l) := by
  induction names with
  | nil => intro l h; exact h
  | cons n rest ih =>
    intro l h
    exact ih (addToListStep l n) (SecOkL_addToListStep l n h)

theorem pushName_nodup (n : Str) (l : List Str) (h : l.Nodup) : (pushName n l).Nodup := by
  unfold pushName
  by_cases hm : n ∈ l
  · rw [if_pos hm]
    exact h
  · rw [if_neg hm]
    rw [List.nodup_append]
    exact ⟨h, List.nodup_singleton n, fun a ha hb => hm (by
      simp only [List.mem_singleton] at hb
      rwa [← hb])⟩

theorem alGet_mem {α β : Type} [DecidableEq α] (m : List (α × β)) (k : α) (v : β)
    (h : alGet m k = some v) : (k, v) ∈ m := by
  induction m with
  | nil => simp [alGet] at h
  | cons p t ih =>
    obtain ⟨a, b⟩ := p
    rw [alGet_cons] at h
    by_cases ha : a = k
    · rw [if_pos ha] at h
      subst ha
      rw [Option.some.injEq] at h
      subst h
      exact List.mem_cons_self _ _
    · rw [if_neg ha] at h
      exact List.mem_cons_of_mem _ (ih h)

theorem alUpd_mem {α β : Type} [DecidableEq α] (m : List (α × β)) (k : α) (d : β)
    (f : β → β) :
    ∀ p ∈ alUpd m k d f, p ∈ m ∨ ∃ b, p = (k, f b) ∧ ((k, b) ∈ m ∨ b = d) := by
  induction m with
  | nil =>
    intro p hp
    simp only [alUpd, List.mem_singleton] at hp
    exact Or.inr ⟨d, hp, Or.inr rfl⟩
  | cons q t ih =>
    intro p hp
    obtain ⟨a, b⟩ := q
    by_cases ha : a = k
    · subst ha
      simp only [alUpd, if_pos rfl] at hp
      rcases List.mem_cons.mp hp with rfl | hp2
      · exact Or.inr ⟨b, rfl, Or.inl (List.mem_cons_self _ _)⟩
      · exact Or.inl (List.mem_cons_of_mem _ hp2)
    · simp only [alUpd, if_neg ha] at hp
      rcases List.mem_cons.mp hp with rfl | hp2
      · exact Or.inl (List.mem_cons_self _ _)
      · rcases ih p hp2 with h | ⟨b2, hb2, hm2⟩
        · exact Or.inl (List.mem_cons_of_mem _ h)
        · rcases hm2 with hm2 | hm2
          · exact Or.inr ⟨b2, hb2, Or.inl (List.mem_cons_of_mem _ hm2)⟩
          · exact Or.inr ⟨b2, hb2, Or.inr hm2⟩

/-- All lists held by the recovery accumulator are duplicate-free. -/
def AccListsOk (acc : RestoreAcc) : Prop :=
  ∀ p ∈ acc.byGid, ∀ q ∈ p.2, q.2.Nodup

theorem processLine_acc_ok (hIdx : HeaderIdx) (acc : RestoreAcc) (line : Str)
    (h : AccListsOk acc) : AccListsOk (processLine hIdx acc line) := by
  unfold processLine
  by_cases h1 : jsTrim line = []
  · rw [if_pos h1]
    exact h
  · rw [if_neg h1]
    by_cases h2 : jsTrim (colOr (parseCsvLine (jsTrim line)) hIdx.gid []) = []
      ∨ jsTrim (colOr (parseCsvLine (jsTrim line)) hIdx.name []) = []
    · rw [if_pos h2]
      exact h
    · rw [if_neg h2]
      intro p hp q hq
      rcases alUpd_mem _ _ _ _ p hp with hmem | ⟨b, rfl, hb⟩
      · exact h p hmem q hq
      · simp only at hq
        rcases alUpd_mem _ _ _ _ q hq with hqmem | ⟨c, rfl, hc⟩
        · rcases hb with hb | rfl
          · exact h _ hb q hqmem
          · simp at hqmem
        · apply pushName_nodup
          rcases hc with hc | rfl
          · rcases hb with hb | rfl
            · exact h _ hb _ hc
            · simp at hc
          · exact List.nodup_nil

theorem foldl_processLine_acc_ok (hIdx : HeaderIdx) :
    ∀ (ls : List Str) (acc : RestoreAcc), AccListsOk acc →
      AccListsOk (ls.foldl (processLine hIdx) acc) := by
  intro ls
  induction ls with
  | nil => intro acc h; exact h
  | cons x t ih =>
    intro acc h
    exact ih (processLine hIdx acc x) (processLine_acc_ok hIdx acc x h)

theorem buildSections_ok (secMap : List (Nat × List Str))
    (metaMap : List (Nat × SectionMeta)) (h : ∀ q ∈ secMap, q.2.Nodup) :
    ∀ sec ∈ buildSections secMap metaMap, SecOkL sec.list := by
  intro sec hsec
  unfold buildSections at hsec
  obtain ⟨i, hi, rfl⟩ := List.mem_map.mp hsec
  show SecOkL (buildSection secMap metaMap i).list
  unfold buildSection
  simp only []
  match halg : alGet secMap i with
  | none => exact SecOkL_nil
  | some v =>
    simp only [Option.getD_some]
    exact List.Nodup.filter isReal (h (i, v) (alGet_mem secMap i v halg))

theorem restoreAccOf_ok (hIdx : HeaderIdx) (content : Str) :
    AccListsOk (restoreAccOf hIdx content) := by
  unfold restoreAccOf
  apply foldl_processLine_acc_ok
  intro p2 hp2
  exact (List.not_mem_nil p2 hp2).elim

theorem restore_games_ok (now : Int) (content : Str) :
    ∀ e ∈ restoreGamesFromCsv now [] content, GameOk e.2 := by
  intro e he
  unfold restoreGamesFromCsv at he
  rw [if_neg (by simp)] at he
  split at he
  · simp at he
  · split at he
    · simp at he
    · split at he
      · unfold restoreBuild at he
        split at he
        · simp at he
        · simp only [List.nil_append, List.mem_map] at he
          obtain ⟨p, hp, rfl⟩ := he
          show GameOk (restoredGame now _)
          intro sec hsec
          apply buildSections_ok _ _ _ sec hsec
          intro q hq
          exact restoreAccOf_ok _ _ p hp q hq
      · simp at he

theorem GameOk_setSection0 (g : Game) (f : GameSection → GameSection)
    (hf : ∀ s, SecOkL s.list → SecOkL (f s).list) (h : GameOk g) :
    GameOk (setSection0 g f) := by
  intro sec hsec
  simp only [setSection0] at hsec
  cases hg : g.sections with
  | nil =>
    rw [hg] at hsec
    exact absurd hsec (List.not_mem_nil sec)
  | cons s t =>
    rw [hg] at hsec
    rcases List.mem_cons.mp hsec with h1 | h2
    · subst h1
      exact hf s (h s (by rw [hg]; exact List.mem_cons_self s t))
    · exact h sec (by rw [hg]; exact List.mem_cons_of_mem s h2)

theorem GameOk_modifyTitleStep (g : Game) (o : Option Str) (h : GameOk g) :
    GameOk (modifyTitleStep g o) := by
  cases o with
  | none => exact h
  | some t => intro sec hsec; exact h sec hsec

theorem GameOk_modifyLimitStep (g : Game) (o : Option Nat) (h : GameOk g) :
    GameOk (modifyLimitStep g o) := by
  cases o with
  | none => exact h
  | some l =>
    show GameOk (if 0 < l then setSection0 g (fun s => { s with limit := l }) else g)
    by_cases hl : 0 < l
    · rw [if_pos hl]
      exact GameOk_setSection0 g _ (fun s hs => hs) h
    · rw [if_neg hl]
      exact h

theorem GameOk_modifyBackupStep (g : Game) (o : Option Nat) (h : GameOk g) :
    GameOk (modifyBackupStep g o) := by
  cases o with
  | none => exact h
  | some b => exact GameOk_setSection0 g _ (fun s hs => hs) h

theorem GameOk_modifyMeta (g : Game) (titleOpt : Option Str)
    (limitOpt backupOpt : Option Nat) (h : GameOk g) :
    GameOk (modifyMeta g titleOpt limitOpt backupOpt) :=
  GameOk_modifyBackupStep _ _
    (GameOk_modifyLimitStep _ _ (GameOk_modifyTitleStep _ _ h))

theorem mem_setIdxSection (secs : List GameSection) (idx : Nat) (s sec : GameSection)
    (h : sec ∈ setIdxSection secs idx s) : sec ∈ secs ∨ sec = s := by
  unfold setIdxSection at h
  by_cases hlt : idx < secs.length
  · rw [if_pos hlt] at h
    exact List.mem_or_eq_of_mem_set h
  · rw [if_neg hlt] at h
    rcases List.mem_append.mp h with h1 | h2
    · exact Or.inl h1
    · exact Or.inr (List.mem_singleton.mp h2)

theorem SecOkL_configuredSection (g : Game) (idx : Nat) (p : List Str)
    (h : GameOk g) : SecOkL (configuredSection g idx p).list := by
  show SecOkL (match g.sections[idx]? with
    | some s => s.list
    | none => [])
  cases hg : g.sections[idx]? with
  | none => exact SecOkL_nil
  | some s => exact h s (List.getElem?_mem hg)

end Roster

namespace Roster

/-- A concrete game for exercising the invariant-preservation theorem. -/
def c4Game : Game :=
  { title := "c4".toList, note := [], active := true, startTime := 0,
    lastActiveTime := 0, scheduleTime := none, scheduleInput := none,
    anonymous := [], anonymousCount := 0,
    sections := [⟨"s".toList, 4, some 2, [], ["甲".toList, ANON]⟩] }

/-- C4: every state-mutating handler preserves the per-section invariant that
the real (non-placeholder) names in each section's list are pairwise
distinct: creation installs an invariant-satisfying game, join and bulk-list
extend an invariant-satisfying list to an invariant-satisfying list, removal
(by name or of the last placeholder), modification, section reconfiguration
and clearing preserve the invariant of a whole game, and every game rebuilt
by the CSV recovery path satisfies it. -/
theorem C4_invariant_preservation :
    (∀ (title : Str) (limit backup : Nat) (initialList anonList : List Str)
        (anonCount : Nat) (st : Option Int) (si : Option Str) (now : Int)
        (g : Game),
      (createGame title limit backup initialList anonList anonCount st si now).2
        = some g → GameOk g)
    ∧ (∀ cur names, SecOkL cur → SecOkL (joinApply cur names).2)
    ∧ (∀ cur names, SecOkL cur → SecOkL (bulkListApply cur names).2)
    ∧ (∀ g name, GameOk g → GameOk (removeFromListG g name))
    ∧ (∀ g, GameOk g → GameOk (removeAnonG g))
    ∧ (∀ g titleOpt limitOpt backupOpt listOpt, GameOk g →
        GameOk (modifyApply g titleOpt limitOpt backupOpt listOpt).2)
    ∧ (∀ g idx p, GameOk g → GameOk (configSection g idx p))
    ∧ (∀ g, GameOk g → GameOk (clearLists g))
    ∧ (∀ (now : Int) (content : Str), ∀ e ∈ restoreGamesFromCsv now [] content,
        GameOk e.2) := by
  refine ⟨?_, ?_, ?_, ?_, ?_, ?_, ?_, ?_, restore_games_ok⟩
  · intro title limit backup initialList anonList anonCount st si now g hg
    unfold createGame at hg
    by_cases hd : ¬ (initialList.filter isReal).Nodup
    · rw [if_pos hd] at hg
      simp at hg
    · rw [if_neg hd] at hg
      simp only [Option.some.injEq] at hg
      subst hg
      intro sec hsec
      simp only [List.mem_singleton] at hsec
      subst hsec
      exact not_not.mp hd
  · intro cur names h
    unfold joinApply
    by_cases h0 : names = []
    · rw [if_pos h0]
      exact h
    · rw [if_neg h0]
      show SecOkL (if (names.filter isReal).any (fun n => decide (n ∈ cur)) = true
          ∨ ¬ (names.filter isReal).Nodup then (some dupErr, cur)
        else (none, names.foldl addToListStep cur)).2
      by_cases hc : (names.filter isReal).any (fun n => decide (n ∈ cur)) = true
          ∨ ¬ (names.filter isReal).Nodup
      · rw [if_pos hc]
        exact h
      · rw [if_neg hc]
        exact SecOkL_foldl_add names cur h
  · intro cur names h
    unfold bulkListApply
    by_cases hc : names.any (fun n => decide (n ∈ cur)) = true ∨ ¬ names.Nodup
    · rw [if_pos hc]
      exact h
    · rw [if_neg hc]
      exact SecOkL_foldl_add names cur h
  · intro g name h sec hsec
    simp only [removeFromListG, List.mem_map] at hsec
    obtain ⟨s, hs, rfl⟩ := hsec
    exact SecOkL_erase s.list name (h s hs)
  · intro g h sec hsec
    simp only [removeAnonG] at hsec
    cases hg : g.sections with
    | nil =>
      rw [hg] at hsec
      exact absurd hsec (List.not_mem_nil sec)
    | cons s t =>
      rw [hg] at hsec
      rcases List.mem_cons.mp hsec with h1 | h2
      · subst h1
        exact SecOkL_removeLastAnon s.list (h s (by rw [hg]; exact List.mem_cons_self s t))
      · exact h sec (by rw [hg]; exact List.mem_cons_of_mem s h2)
  · intro g titleOpt limitOpt backupOpt listOpt h
    cases listOpt with
    | none =>
      show GameOk (if modifyChanged titleOpt limitOpt backupOpt = false then
          (some nothingErr, modifyMeta g titleOpt limitOpt backupOpt)
        else (none, modifyMeta g titleOpt limitOpt backupOpt)).2
      by_cases hc : modifyChanged titleOpt limitOpt backupOpt = false
      · rw [if_pos hc]
        exact GameOk_modifyMeta g _ _ _ h
      · rw [if_neg hc]
        exact GameOk_modifyMeta g _ _ _ h
    | some newList =>
      show GameOk (if ¬ (newList.filter isReal).Nodup then
          (some listDupErr, modifyMeta g titleOpt limitOpt backupOpt)
        else (none, setSection0 (modifyMeta g titleOpt limitOpt backupOpt)
          (fun s => { s with list := newList }))).2
      by_cases hc : ¬ (newList.filter isReal).Nodup
      · rw [if_pos hc]
        exact GameOk_modifyMeta g _ _ _ h
      · rw [if_neg hc]
        exact GameOk_setSection0 _ _ (fun s _ => not_not.mp hc)
          (GameOk_modifyMeta g _ _ _ h)
  · intro g idx p h sec hsec
    simp only [configSection] at hsec
    rcases mem_setIdxSection _ _ _ _ hsec with h1 | h2
    · exact h sec h1
    · subst h2
      exact SecOkL_configuredSection g idx p h
  · intro g h sec hsec
    simp only [clearLists, List.mem_map] at hsec
    obtain ⟨s, hs, rfl⟩ := hsec
    exact SecOkL_nil

/-- Concrete instantiation of the invariant-preservation theorem: joining a
fresh name plus a placeholder to a one-name list keeps the invariant, and
modifying the sample game's limit keeps every section invariant. -/
theorem C4_witness :
    SecOkL (joinApply ["甲".toList] ["乙".toList, ANON]).2
    ∧ GameOk (modifyApply c4Game none (some 8) none none).2 :=
  ⟨C4_invariant_preservation.2.1 ["甲".toList] ["乙".toList, ANON] (by decide),
   C4_invariant_preservation.2.2.2.2.2.1 c4Game none (some 8) none none (by decide)⟩

/-! ### The rendering fold rule in closed form -/

/-- The fold condition: the entry at index `i` is anonymous and is followed
by another anonymous entry. -/
def foldSuppressed (anns : List Str) (lst : List Str) (i : Nat) : Bool :=
  isAnonEntry anns (lst.getD i [])
    && (match lst[i + 1]? with
        | some m => isAnonEntry anns m
        | none => false)

/-- The line printed for a filled confirmed slot: label, index-plus-one
number, then the name (masked when anonymous). -/
def slotLine (anns : List Str) (label : Str) (lst : List Str) (i : Nat) : Str :=
  label ++ natToStr (i + 1) ++ ". ".toList
    ++ (if isAnonEntry anns (lst.getD i []) then "***".toList else lst.getD i [])

theorem confirmedSlot_lt (anns : List Str) (label : Str) (lst : List Str)
    (limit i : Nat) (h : i < lst.length) :
    confirmedSlot anns label lst limit i =
      if foldSuppressed anns lst i then [] else [slotLine anns label lst i] := by
  unfold confirmedSlot foldSuppressed slotLine
  rw [List.getElem?_eq_getElem h]
  rw [List.getD_eq_getElem?_getD, List.getElem?_eq_getElem h]
  rfl

theorem confirmedAux_add (anns : List Str) (label : Str) (lst : List Str)
    (limit : Nat) : ∀ (a b i : Nat),
    confirmedAux anns label lst limit i (a + b)
      = confirmedAux anns label lst limit i a
        ++ confirmedAux anns label lst limit (i + a) b := by
  intro a
  induction a with
  | zero =>
    intro b i
    rw [Nat.zero_add, Nat.add_zero]
    rfl
  | succ a ih =>
    intro b i
    have h1 : a + 1 + b = (a + b) + 1 := by omega
    rw [h1]
    show confirmedSlot anns label lst limit i
        ++ confirmedAux anns label lst limit (i + 1) (a + b)
      = (confirmedSlot anns label lst limit i
        ++ confirmedAux anns label lst limit (i + 1) a)
        ++ confirmedAux anns label lst limit (i + (a + 1)) b
    rw [ih b (i + 1), List.append_assoc]
    have h2 : i + 1 + a = i + (a + 1) := by omega
    rw [h2]

theorem confirmedAux_filled (anns : List Str) (label : Str) (lst : List Str)
    (limit : Nat) : ∀ (rem i : Nat), i + rem ≤ lst.length →
    confirmedAux anns label lst limit i rem
      = (List.range' i rem).filterMap (fun j =>
          if foldSuppressed anns lst j then none
          else some (slotLine anns label lst j)) := by
  intro rem
  induction rem with
  | zero =>
    intro i _
    rfl
  | succ rem ih =>
    intro i h
    show confirmedSlot anns label lst limit i
        ++ confirmedAux anns label lst limit (i + 1) rem = _
    rw [confirmedSlot_lt anns label lst limit i (by omega)]
    rw [ih (i + 1) (by omega)]
    rw [List.range'_succ, List.filterMap_cons]
    by_cases hs : foldSuppressed anns lst i = true
    · rw [if_pos hs, if_pos hs]
      rw [List.nil_append]
    · rw [if_neg hs, if_neg hs]
      rfl

theorem confirmedAux_over (anns : List Str) (label : Str) (lst : List Str)
    (limit : Nat) : ∀ (rem i : Nat), lst.length < i → i + rem = limit →
    confirmedAux anns label lst limit i rem
      = if rem = 0 then [] else [label ++ natToStr limit ++ ". ".toList] := by
  intro rem
  induction rem with
  | zero =>
    intro i _ _
    rfl
  | succ rem ih =>
    intro i hlen hlim
    show confirmedSlot anns label lst limit i
        ++ confirmedAux anns label lst limit (i + 1) rem = _
    have hnone : lst[i]? = none := List.getElem?_eq_none (by omega)
    cases rem with
    | zero =>
      have hi : i = limit - 1 := by omega
      show (match lst[i]? with
        | some name =>
          if isAnonEntry anns name
              && (match lst[i + 1]? with
                  | some m => isAnonEntry anns m
                  | none => false) then []
          else [label ++ natToStr (i + 1) ++ ". ".toList
            ++ (if isAnonEntry anns name then "***".toList else name)]
        | none =>
          if i = limit - 1 then [label ++ natToStr (i + 1) ++ ". ".toList]
          else if i = lst.length then ["..".toList]
          else []) ++ confirmedAux anns label lst limit (i + 1) 0 = _
      rw [hnone]
      show (if i = limit - 1 then [label ++ natToStr (i + 1) ++ ". ".toList]
          else if i = lst.length then ["..".toList]
          else []) ++ [] = _
      rw [if_pos hi, List.append_nil]
      have h1 : i + 1 = limit := by omega
      rw [h1]
      rfl
    | succ rem' =>
      have hi : ¬ i = limit - 1 := by omega
      have hil : ¬ i = lst.length := by omega
      show (match lst[i]? with
        | some name =>
          if isAnonEntry anns name
              && (match lst[i + 1]? with
                  | some m => isAnonEntry anns m
                  | none => false) then []
          else [label ++ natToStr (i + 1) ++ ". ".toList
            ++ (if isAnonEntry anns name then "***".toList else name)]
        | none =>
          if i = limit - 1 then [label ++ natToStr (i + 1) ++ ". ".toList]
          else if i = lst.length then ["..".toList]
          else []) ++ confirmedAux anns label lst limit (i + 1) (rem' + 1) = _
      rw [hnone]
      show (if i = limit - 1 then [label ++ natToStr (i + 1) ++ ". ".toList]
          else if i = lst.length then ["..".toList]
          else []) ++ confirmedAux anns label lst limit (i + 1) (rem' + 1) = _
      rw [if_neg hi, if_neg hil, List.nil_append]
      rw [ih (i + 1) (by omega) (by omega)]
      rfl

/-- The master closed form of the confirmed-portion loop: the filled zone
is a lookahead-only filter of the list prefix, and the tail zone contributes
the `..` marker and the final blank numbered slot. -/
theorem confirmedLines_closed (anns : List Str) (label : Str) (lst : List Str)
    (limit : Nat) :
    confirmedLines anns label lst limit
      = ((List.range (min limit lst.length)).filterMap (fun j =>
          if foldSuppressed anns lst j then none
          else some (slotLine anns label lst j)))
        ++ (if limit ≤ lst.length then []
           else if lst.length = limit - 1 then [label ++ natToStr limit ++ ". ".toList]
           else ["..".toList, label ++ natToStr limit ++ ". ".toList]) := by
  unfold confirmedLines
  by_cases hle : limit ≤ lst.length
  · rw [if_pos hle, List.append_nil, min_eq_left hle, List.range_eq_range']
    exact confirmedAux_filled anns label lst limit limit 0 (by omega)
  · rw [if_neg hle]
    have hlt : lst.length < limit := by omega
    have hsplit : limit = lst.length + (limit - lst.length) := by omega
    have h1 := confirmedAux_add anns label lst limit lst.length (limit - lst.length) 0
    rw [← hsplit, Nat.zero_add] at h1
    rw [h1]
    rw [min_eq_right (Nat.le_of_lt hlt), List.range_eq_range']
    rw [confirmedAux_filled anns label lst limit lst.length 0 (by omega)]
    have h2 : limit - lst.length = (limit - lst.length - 1) + 1 := by omega
    rw [h2]
    show _ ++ (confirmedSlot anns label lst limit lst.length
        ++ confirmedAux anns label lst limit (lst.length + 1) (limit - lst.length - 1)) = _
    have hnone : lst[lst.length]? = none := List.getElem?_eq_none (by omega)
    by_cases hb : lst.length = limit - 1
    · have h3 : limit - lst.length - 1 = 0 := by omega
      rw [h3]
      show _ ++ ((match lst[lst.length]? with
        | some name =>
          if isAnonEntry anns name
              && (match lst[lst.length + 1]? with
                  | some m => isAnonEntry anns m
                  | none => false) then []
          else [label ++ natToStr (lst.length + 1) ++ ". ".toList
            ++ (if isAnonEntry anns name then "***".toList else name)]
        | none =>
          if lst.length = limit - 1 then [label ++ natToStr (lst.length + 1) ++ ". ".toList]
          else if lst.length = lst.length then ["..".toList]
          else []) ++ []) = _
      rw [hnone]
      show _ ++ ((if lst.length = limit - 1 then [label ++ natToStr (lst.length + 1) ++ ". ".toList]
          else if lst.length = lst.length then ["..".toList]
          else []) ++ []) = _
      rw [if_pos hb, if_pos hb, List.append_nil]
      have h4 : lst.length + 1 = limit := by omega
      rw [h4]
    · show _ ++ ((match lst[lst.length]? with
        | some name =>
          if isAnonEntry anns name
              && (match lst[lst.length + 1]? with
                  | some m => isAnonEntry anns m
                  | none => false) then []
          else [label ++ natToStr (lst.length + 1) ++ ". ".toList
            ++ (if isAnonEntry anns name then "***".toList else name)]
        | none =>
          if lst.length = limit - 1 then [label ++ natToStr (lst.length + 1) ++ ". ".toList]
          else if lst.length = lst.length then ["..".toList]
          else []) ++ confirmedAux anns label lst limit (lst.length + 1)
            (limit - lst.length - 1)) = _
      rw [hnone]
      show _ ++ ((if lst.length = limit - 1 then [label ++ natToStr (lst.length + 1) ++ ". ".toList]
          else if lst.length = lst.length then ["..".toList]
          else []) ++ confirmedAux anns label lst limit (lst.length + 1)
            (limit - lst.length - 1)) = _
      rw [if_neg hb, if_pos rfl]
      rw [confirmedAux_over anns label lst limit (limit - lst.length - 1)
        (lst.length + 1) (by omega) (by omega)]
      rw [if_neg (by omega : ¬ limit - lst.length - 1 = 0), if_neg hb]
      rfl

/-- C5: in the confirmed portion of a section, the filled slots are exactly a
lookahead-only filter — the slot at index `i` is suppressed exactly when the
entry there is anonymous and the entry at `i + 1` is also anonymous; every
surviving slot prints at line number `i + 1` (tied to the array index), with
an anonymous survivor masked as `***`; concretely, `[A, __ANON__, __ANON__, B]`
with limit 4 renders `1. A`, `3. ***` (index 2 folding index 1) and `4. B`. -/
theorem C5_confirmed_fold :
    (∀ (anns : List Str) (label : Str) (lst : List Str) (limit : Nat),
      confirmedLines anns label lst limit
        = ((List.range (min limit lst.length)).filterMap (fun j =>
            if foldSuppressed anns lst j then none
            else some (slotLine anns label lst j)))
          ++ (if limit ≤ lst.length then []
             else if lst.length = limit - 1 then [label ++ natToStr limit ++ ". ".toList]
             else ["..".toList, label ++ natToStr limit ++ ". ".toList]))
    ∧ confirmedLines [] [] ["A".toList, ANON, ANON, "B".toList] 4
        = ["1. A".toList, "3. ***".toList, "4. B".toList]
    ∧ foldSuppressed [] ["A".toList, ANON, ANON, "B".toList] 1 = true
    ∧ foldSuppressed [] ["A".toList, ANON, ANON, "B".toList] 2 = false
    ∧ slotLine [] [] ["A".toList, ANON, ANON, "B".toList] 2 = "3. ***".toList :=
  ⟨confirmedLines_closed, by decide, by decide, by decide, by decide⟩

/-- Filtering against the empty legacy anonymous list reduces anonymity to
the placeholder test. -/
theorem isAnonEntry_nil (x : Str) : isAnonEntry [] x = decide (x = ANON) := by
  unfold isAnonEntry
  rw [List.contains_nil, Bool.or_false]

theorem foldSuppressed_real (lst : List Str) (i : Nat)
    (h : lst.getD i [] ≠ ANON) : foldSuppressed [] lst i = false := by
  unfold foldSuppressed
  rw [isAnonEntry_nil, decide_eq_false h, Bool.false_and]

theorem slotLine_real (lbl : Str) (lst : List Str) (i : Nat)
    (h : lst.getD i [] ≠ ANON) :
    slotLine [] lbl lst i = lbl ++ natToStr (i + 1) ++ ". ".toList ++ lst.getD i [] := by
  unfold slotLine
  rw [isAnonEntry_nil, decide_eq_false h]
  rw [if_neg Bool.false_ne_true]

theorem filterMap_render_cons (lbl : Str) (lst : List Str) (i : Nat) (l : List Nat)
    (h : lst.getD i [] ≠ ANON) :
    List.filterMap (fun j => if foldSuppressed [] lst j = true then none
      else some (slotLine [] lbl lst j)) (i :: l)
    = (lbl ++ natToStr (i + 1) ++ ". ".toList ++ lst.getD i [])
      :: List.filterMap (fun j => if foldSuppressed [] lst j = true then none
        else some (slotLine [] lbl lst j)) l := by
  rw [List.filterMap_cons]
  have hc : foldSuppressed [] lst i = false := foldSuppressed_real lst i h
  simp only [hc, Bool.false_eq_true, if_false, slotLine_real lbl lst i h]

/-- C6: with limit 3 and backup limit 2, a section of five real names renders
three confirmed lines numbered 1–3 and a waitlist block of two lines
independently numbered 1–2; a sixth join is accepted into the list (length 6)
but the sixth entry is never rendered, so the section renders identically
with five and with six names. -/
theorem C6_capacity_render (t lbl a b c d e f : Str)
    (h : (∀ x ∈ [a, b, c, d, e, f], x ≠ ANON) ∧ f ∉ [a, b, c, d, e]) :
    confirmedLines [] lbl [a, b, c, d, e] 3
      = [lbl ++ natToStr 1 ++ ". ".toList ++ a,
         lbl ++ natToStr 2 ++ ". ".toList ++ b,
         lbl ++ natToStr 3 ++ ". ".toList ++ c]
    ∧ waitlistLines [] [a, b, c, d, e] 3 2
      = ["--- 候補 ---".toList,
         "候補".toList ++ natToStr 1 ++ ". ".toList ++ d,
         "候補".toList ++ natToStr 2 ++ ". ".toList ++ e]
    ∧ (natToStr 1 = "1".toList ∧ natToStr 2 = "2".toList ∧ natToStr 3 = "3".toList)
    ∧ joinApply [a, b, c, d, e] [f] = (none, [a, b, c, d, e, f])
    ∧ (joinApply [a, b, c, d, e] [f]).2.length = 6
    ∧ sectionLines [] ⟨t, 3, some 2, lbl, [a, b, c, d, e, f]⟩
      = sectionLines [] ⟨t, 3, some 2, lbl, [a, b, c, d, e]⟩ := by
  have ha : a ≠ ANON := h.1 a (by simp)
  have hb : b ≠ ANON := h.1 b (by simp)
  have hc : c ≠ ANON := h.1 c (by simp)
  have hf : f ≠ ANON := h.1 f (by simp)
  have hfn : f ∉ [a, b, c, d, e] := h.2
  have hcf5 : confirmedLines [] lbl [a, b, c, d, e] 3
      = [lbl ++ natToStr 1 ++ ". ".toList ++ a,
         lbl ++ natToStr 2 ++ ". ".toList ++ b,
         lbl ++ natToStr 3 ++ ". ".toList ++ c] := by
    rw [confirmedLines_closed]
    have hlen : (3 : Nat) ≤ [a, b, c, d, e].length := by simp
    rw [if_pos hlen, List.append_nil, min_eq_left hlen]
    have hr : List.range 3 = [0, 1, 2] := by decide
    rw [hr]
    rw [filterMap_render_cons lbl [a, b, c, d, e] 0 [1, 2] ha]
    rw [filterMap_render_cons lbl [a, b, c, d, e] 1 [2] hb]
    rw [filterMap_render_cons lbl [a, b, c, d, e] 2 [] hc]
    rw [List.filterMap_nil]
    rfl
  have hcf6 : confirmedLines [] lbl [a, b, c, d, e, f] 3
      = [lbl ++ natToStr 1 ++ ". ".toList ++ a,
         lbl ++ natToStr 2 ++ ". ".toList ++ b,
         lbl ++ natToStr 3 ++ ". ".toList ++ c] := by
    rw [confirmedLines_closed]
    have hlen : (3 : Nat) ≤ [a, b, c, d, e, f].length := by simp
    rw [if_pos hlen, List.append_nil, min_eq_left hlen]
    have hr : List.range 3 = [0, 1, 2] := by decide
    rw [hr]
    rw [filterMap_render_cons lbl [a, b, c, d, e, f] 0 [1, 2] ha]
    rw [filterMap_render_cons lbl [a, b, c, d, e, f] 1 [2] hb]
    rw [filterMap_render_cons lbl [a, b, c, d, e, f] 2 [] hc]
    rw [List.filterMap_nil]
    rfl
  have hja : joinApply [a, b, c, d, e] [f] = (none, [a, b, c, d, e, f]) := by
    show (if [f] = ([] : List Str) then ((none : Option Str), [a, b, c, d, e])
      else if ([f].filter isReal).any (fun n => decide (n ∈ [a, b, c, d, e])) = true
          ∨ ¬ ([f].filter isReal).Nodup then (some dupErr, [a, b, c, d, e])
      else (none, [f].foldl addToListStep [a, b, c, d, e]))
      = (none, [a, b, c, d, e, f])
    rw [if_neg (by simp : ¬ ([f] : List Str) = [])]
    have hfilter : [f].filter isReal = [f] := by
      simp [isReal, hf]
    rw [hfilter]
    rw [if_neg (by simpa using hfn)]
    show (none, addToListStep [a, b, c, d, e] f) = (none, [a, b, c, d, e, f])
    unfold addToListStep
    rw [if_neg hf, if_neg hfn]
    rfl
  refine ⟨hcf5, rfl, ⟨by decide, by decide, by decide⟩, hja, by rw [hja]; rfl, ?_⟩
  show ("【".toList ++ t ++ "】".toList)
      :: (confirmedLines [] lbl [a, b, c, d, e, f] 3
        ++ waitlistLines [] [a, b, c, d, e, f] 3 2)
    = ("【".toList ++ t ++ "】".toList)
      :: (confirmedLines [] lbl [a, b, c, d, e] 3
        ++ waitlistLines [] [a, b, c, d, e] 3 2)
  rw [hcf5, hcf6]
  rfl

/-- Concrete instantiation of the capacity-rendering theorem at the names
a–f. -/
theorem C6_witness :
    confirmedLines [] [] ["a".toList, "b".toList, "c".toList, "d".toList, "e".toList] 3
      = [[] ++ natToStr 1 ++ ". ".toList ++ "a".toList,
         [] ++ natToStr 2 ++ ". ".toList ++ "b".toList,
         [] ++ natToStr 3 ++ ". ".toList ++ "c".toList]
    ∧ waitlistLines [] ["a".toList, "b".toList, "c".toList, "d".toList, "e".toList] 3 2
      = ["--- 候補 ---".toList,
         "候補".toList ++ natToStr 1 ++ ". ".toList ++ "d".toList,
         "候補".toList ++ natToStr 2 ++ ". ".toList ++ "e".toList]
    ∧ (natToStr 1 = "1".toList ∧ natToStr 2 = "2".toList ∧ natToStr 3 = "3".toList)
    ∧ joinApply ["a".toList, "b".toList, "c".toList, "d".toList, "e".toList] ["f".toList]
      = (none, ["a".toList, "b".toList, "c".toList, "d".toList, "e".toList, "f".toList])
    ∧ (joinApply ["a".toList, "b".toList, "c".toList, "d".toList, "e".toList]
        ["f".toList]).2.length = 6
    ∧ sectionLines [] ⟨"t".toList, 3, some 2, [],
        ["a".toList, "b".toList, "c".toList, "d".toList, "e".toList, "f".toList]⟩
      = sectionLines [] ⟨"t".toList, 3, some 2, [],
        ["a".toList, "b".toList, "c".toList, "d".toList, "e".toList]⟩ :=
  C6_capacity_render "t".toList [] "a".toList "b".toList "c".toList "d".toList
    "e".toList "f".toList ⟨by decide, by decide⟩

/-! ### Join/leave sigil parsing (`+N` / `-N` command recognition) -/

/-- A JavaScript regex line terminator (`.` does not match these). -/
def isLineTerm (c : Char) : Bool :=
  decide (c.toNat = 10) || decide (c.toNat = 13)
    || decide (c.toNat = 0x2028) || decide (c.toNat = 0x2029)

/-- The sigil digit class `[1-9]`. -/
def digit19 (c : Char) : Bool := decide (49 ≤ c.toNat) && decide (c.toNat ≤ 57)

/-- The start form `text.match(/^\+([1-9])(\s*)(.*)/)` followed by `.trim()` of the third
group: the sigil digit, then the name content of the rest of the first line
after the greedy whitespace run, trimmed. -/
def joinStartMatch (text : Str) : Option (Nat × Str) :=
  match text with
  | '+' :: d :: rest =>
    if digit19 d then
      some (digitVal d,
        jsTrim ((rest.dropWhile isJsWs).takeWhile (fun c => ! isLineTerm c)))
    else none
  | _ => none

/-- The end form `text.match(/^(.+?)(\s*)\+([1-9])$/)` followed by the non-empty check of
`namePart = m[1].trim()`: strip the trailing sigil, then the maximal
whitespace suffix; the remaining core must be non-empty and free of line
terminators (the lazy dot group cannot cross one), and its trim is the name. -/
def joinEndMatch (text : Str) : Option (Nat × Str) :=
  match text.reverse with
  | d :: '+' :: rcore =>
    if digit19 d then
      if (rcore.dropWhile isJsWs ≠ []
          ∧ (rcore.dropWhile isJsWs).all (fun c => ! isLineTerm c)) then
        some (digitVal d, jsTrim (rcore.dropWhile isJsWs).reverse)
      else none
    else none
  | _ => none

/-- The join-command recogniser: the start form is tried first, the end form
only on its failure. -/
def parseJoinSigil (text : Str) : Option (Nat × Str) :=
  match joinStartMatch text with
  | some r => some r
  | none => joinEndMatch text

/-- The leave start form `text.match(/^-([1-9])(\s*)(.*)/)` (the count digit
is ignored by the handler, only the trimmed name matters). -/
def leaveStartMatch (text : Str) : Option Str :=
  match text with
  | '-' :: d :: rest =>
    if digit19 d then
      some (jsTrim ((rest.dropWhile isJsWs).takeWhile (fun c => ! isLineTerm c)))
    else none
  | _ => none

/-- The leave end form `text.match(/^(.+?)(\s*)-([1-9])$/)` with the non-empty `namePart`
check. -/
def leaveEndMatch (text : Str) : Option Str :=
  match text.reverse with
  | d :: '-' :: rcore =>
    if digit19 d then
      if (rcore.dropWhile isJsWs ≠ []
          ∧ (rcore.dropWhile isJsWs).all (fun c => ! isLineTerm c)) then
        some (jsTrim (rcore.dropWhile isJsWs).reverse)
      else none
    else none
  | _ => none

/-- The leave-command recogniser: start form first, end form on failure. -/
def parseLeaveSigil (text : Str) : Option Str :=
  match leaveStartMatch text with
  | some r => some r
  | none => leaveEndMatch text

theorem digit19_val {d : Char} (h : digit19 d = true) :
    1 ≤ digitVal d ∧ digitVal d ≤ 9 := by
  unfold digit19 at h
  rw [Bool.and_eq_true] at h
  have h1 := of_decide_eq_true h.1
  have h2 := of_decide_eq_true h.2
  unfold digitVal
  omega

theorem dropWhile_head_false {α : Type} (p : α → Bool) :
    ∀ (l : List α) (a : α) (t : List α), l.dropWhile p = a :: t → p a = false := by
  intro l
  induction l with
  | nil =>
    intro a t h
    simp [List.dropWhile] at h
  | cons x xs ih =>
    intro a t h
    rw [List.dropWhile_cons] at h
    by_cases hx : p x = true
    · rw [if_pos hx] at h
      exact ih a t h
    · rw [if_neg hx] at h
      cases h
      exact Bool.eq_false_iff.mpr hx

theorem mem_dropWhile_of_not {α : Type} (p : α → Bool) :
    ∀ (l : List α) (a : α), a ∈ l → p a = false → a ∈ l.dropWhile p := by
  intro l
  induction l with
  | nil =>
    intro a h
    exact absurd h (List.not_mem_nil a)
  | cons x xs ih =>
    intro a h hp
    rw [List.dropWhile_cons]
    by_cases hx : p x = true
    · rw [if_pos hx]
      rcases List.mem_cons.mp h with h1 | h2
      · subst h1
        rw [hp] at hx
        exact absurd hx (by simp)
      · exact ih a h2 hp
    · rw [if_neg hx]
      exact h

theorem jsTrim_ne_nil_of_mem (s : Str) (a : Char) (ha : a ∈ s)
    (hw : isJsWs a = false) : jsTrim s ≠ [] := by
  unfold jsTrim
  intro hcon
  have h1 : a ∈ s.dropWhile isJsWs := mem_dropWhile_of_not isJsWs s a ha hw
  have h2 : a ∈ (s.dropWhile isJsWs).reverse := List.mem_reverse.mpr h1
  have h3 : a ∈ (s.dropWhile isJsWs).reverse.dropWhile isJsWs :=
    mem_dropWhile_of_not isJsWs _ a h2 hw
  have h4 : a ∈ ((s.dropWhile isJsWs).reverse.dropWhile isJsWs).reverse :=
    List.mem_reverse.mpr h3
  rw [hcon] at h4
  exact List.not_mem_nil a h4

theorem joinStartMatch_count (text : Str) (c : Nat) (n : Str)
    (h : joinStartMatch text = some (c, n)) : 1 ≤ c ∧ c ≤ 9 := by
  unfold joinStartMatch at h
  split at h
  · split at h
    · rename_i hd
      simp only [Option.some.injEq, Prod.mk.injEq] at h
      obtain ⟨hc, -⟩ := h
      subst hc
      exact digit19_val hd
    · simp at h
  · simp at h

theorem joinEndMatch_count (text : Str) (c : Nat) (n : Str)
    (h : joinEndMatch text = some (c, n)) : 1 ≤ c ∧ c ≤ 9 := by
  unfold joinEndMatch at h
  split at h
  · split at h
    · rename_i hd
      split at h
      · simp only [Option.some.injEq, Prod.mk.injEq] at h
        obtain ⟨hc, -⟩ := h
        subst hc
        exact digit19_val hd
      · simp at h
    · simp at h
  · simp at h

theorem joinEndMatch_name_ne_nil (text : Str) (c : Nat) (n : Str)
    (h : joinEndMatch text = some (c, n)) : n ≠ [] := by
  unfold joinEndMatch at h
  split at h
  · rename_i rcore hrev
    split at h
    · split at h
      · rename_i hcond
        simp only [Option.some.injEq, Prod.mk.injEq] at h
        obtain ⟨-, hn⟩ := h
        subst hn
        obtain ⟨hne, -⟩ := hcond
        obtain ⟨w, t, hwt⟩ : ∃ w t, rcore.dropWhile isJsWs = w :: t := by
          cases hdw : rcore.dropWhile isJsWs with
          | nil => exact absurd hdw hne
          | cons w t => exact ⟨w, t, rfl⟩
        have hw : isJsWs w = false := dropWhile_head_false isJsWs rcore w t hwt
        rw [hwt]
        exact jsTrim_ne_nil_of_mem _ w (by simp) hw
      · simp at h
    · simp at h
  · simp at h

/-- C7 counterexample: the multi-digit input `+10` does match the join
command form — the start regex `^\+([1-9])(\s*)(.*)` reads it as count 1
with name content `0` (and `-10` likewise matches the leave form with name
`0`), contrary to the claim that a count of 10 does not match. -/
theorem C7_counterexample :
    parseJoinSigil ("+10".toList) = some (1, "0".toList)
    ∧ parseLeaveSigil ("-10".toList) = some ("0".toList) := by
  decide

/-- C7 (amended): the join/leave interpreter tries the sigil at the start of
the line first — any text starting with `+` and a digit 1–9 matches the
start form with that digit as the count and the trimmed rest of the first
line as the name content — and falls back to the end-of-line form only when
the start form fails; the end form requires a non-empty name core before the
sigil; every successful parse carries a count between 1 and 9; `+0` and
`abc +0` match neither form, while `+10` does match (as count 1 with
content `0`). -/
theorem C7_sigil_parsing :
    (∀ (d : Char) (rest : Str), digit19 d = true →
      parseJoinSigil ('+' :: d :: rest)
        = some (digitVal d,
            jsTrim ((rest.dropWhile isJsWs).takeWhile (fun c => ! isLineTerm c))))
    ∧ (∀ text : Str, joinStartMatch text = none →
        parseJoinSigil text = joinEndMatch text)
    ∧ (∀ (text : Str) (c : Nat) (n : Str), joinEndMatch text = some (c, n) → n ≠ [])
    ∧ (∀ (text : Str) (c : Nat) (n : Str), parseJoinSigil text = some (c, n) →
        1 ≤ c ∧ c ≤ 9)
    ∧ (∀ (d : Char) (rest : Str), digit19 d = true →
      parseLeaveSigil ('-' :: d :: rest)
        = some (jsTrim ((rest.dropWhile isJsWs).takeWhile (fun c => ! isLineTerm c))))
    ∧ parseJoinSigil ("+0".toList) = none
    ∧ parseJoinSigil ("abc +0".toList) = none
    ∧ parseJoinSigil ("ab +3".toList) = some (3, "ab".toList)
    ∧ (parseJoinSigil ("+10".toList)).isSome = true
    ∧ parseLeaveSigil ("-0".toList) = none := by
  refine ⟨?_, ?_, joinEndMatch_name_ne_nil, ?_, ?_, by decide, by decide,
    by decide, by decide, by decide⟩
  · intro d rest hd
    have h1 : joinStartMatch ('+' :: d :: rest)
        = some (digitVal d,
            jsTrim ((rest.dropWhile isJsWs).takeWhile (fun c => ! isLineTerm c))) := by
      show (if digit19 d = true then
          some (digitVal d,
            jsTrim ((rest.dropWhile isJsWs).takeWhile (fun c => ! isLineTerm c)))
        else none)
        = some (digitVal d,
            jsTrim ((rest.dropWhile isJsWs).takeWhile (fun c => ! isLineTerm c)))
      rw [if_pos hd]
    unfold parseJoinSigil
    rw [h1]
  · intro text h
    unfold parseJoinSigil
    rw [h]
  · intro text c n h
    unfold parseJoinSigil at h
    split at h
    · rename_i r heq
      injection h with h2
      subst h2
      exact joinStartMatch_count text c n heq
    · exact joinEndMatch_count text c n h
  · intro d rest hd
    have h1 : leaveStartMatch ('-' :: d :: rest)
        = some (jsTrim ((rest.dropWhile isJsWs).takeWhile (fun c => ! isLineTerm c))) := by
      show (if digit19 d = true then
          some (jsTrim ((rest.dropWhile isJsWs).takeWhile (fun c => ! isLineTerm c)))
        else none)
        = some (jsTrim ((rest.dropWhile isJsWs).takeWhile (fun c => ! isLineTerm c)))
      rw [if_pos hd]
    unfold parseLeaveSigil
    rw [h1]

/-- Concrete instantiations of the sigil-precedence theorem. -/
theorem C7_witness :
    parseJoinSigil ("+2villagers".toList) = some (2, "villagers".toList)
    ∧ parseJoinSigil ("zz".toList) = joinEndMatch ("zz".toList)
    ∧ "x".toList ≠ []
    ∧ (1 ≤ 3 ∧ 3 ≤ 9)
    ∧ parseLeaveSigil ("-1 bob".toList) = some ("bob".toList) := by
  refine ⟨?_, ?_, ?_, ?_, ?_⟩
  · have h := C7_sigil_parsing.1 '2' ("villagers".toList) (by decide)
    show parseJoinSigil ('+' :: '2' :: "villagers".toList) = some (2, "villagers".toList)
    rw [h]
    decide
  · exact C7_sigil_parsing.2.1 ("zz".toList) (by decide)
  · exact C7_sigil_parsing.2.2.1 ("x+2".toList) 2 ("x".toList) (by decide)
  · exact C7_sigil_parsing.2.2.2.1 ("ab +3".toList) 3 ("ab".toList) (by decide)
  · have h := C7_sigil_parsing.2.2.2.2.1 '1' (" bob".toList) (by decide)
    show parseLeaveSigil ('-' :: '1' :: " bob".toList) = some ("bob".toList)
    rw [h]
    decide

end Roster
